import Mathlib

/-!
Verification of the shortest-path comparison program (`compare_algorithms.py`).

The program computes a path between two stations of a transit graph with three
algorithms (Dijkstra, A*, Bellman-Ford), measures the total Euclidean length of
each returned path, and compares the three lengths.

Embedding conventions:
* station identifiers are `Fin n`; the Python `dict[str, Station]` becomes a
  function `Fin n → Station n`;
* floating point numbers are idealized as real numbers; `float('inf')` used by
  Bellman-Ford becomes `(⊤ : WithTop ℝ)`;
* the Python `while` loops of Dijkstra and A* and the predecessor walk of
  Bellman-Ford are embedded with an explicit fuel that provably dominates the
  number of iterations the loop can perform (theorems below prove the fueled
  runs complete, i.e. return `some`);
* the `heapq` priority queue is embedded as a list with minimum extraction
  (deterministic leftmost-minimum tie-break).
-/

/-- A station: a position (longitude, latitude) and the list of linked
station identifiers. -/
structure Station (n : ℕ) where
  position : ℝ × ℝ
  links : List (Fin n)

/-- The station map handed to every algorithm (`dict[str, Station]`). -/
abbrev StationMap (n : ℕ) : Type := Fin n → Station n

/-- Euclidean distance between two stations, from their positions
(`math.sqrt((x2 - x1)**2 + (y2 - y1)**2)`). -/
noncomputable def distance {n : ℕ} (station1 station2 : Station n) : ℝ :=
  Real.sqrt ((station2.position.1 - station1.position.1) ^ 2 +
    (station2.position.2 - station1.position.2) ^ 2)

theorem distance_nonneg {n : ℕ} (s1 s2 : Station n) : 0 ≤ distance s1 s2 :=
  Real.sqrt_nonneg _

theorem distance_comm {n : ℕ} (s1 s2 : Station n) : distance s1 s2 = distance s2 s1 := by
  unfold distance
  congr 1
  ring

theorem distance_self {n : ℕ} (s : Station n) : distance s s = 0 := by
  simp [distance]

/-- Helper for evaluating `distance` between stations that share their first
coordinate: the distance is the absolute difference of second coordinates. -/
theorem distance_vertical {n : ℕ} (s1 s2 : Station n) (h : s1.position.1 = s2.position.1) :
    distance s1 s2 = |s2.position.2 - s1.position.2| := by
  rw [distance, h, sub_self]
  rw [show (0 : ℝ) ^ 2 + (s2.position.2 - s1.position.2) ^ 2
      = (s2.position.2 - s1.position.2) ^ 2 by ring]
  exact Real.sqrt_sq_eq_abs _

/-- Total length of a path: the sum of `distance` over consecutive pairs
(`for i in range(len(path)-1): length += distance(map[path[i]], map[path[i+1]])`). -/
noncomputable def calculate_path_length {n : ℕ} (path : List (Fin n)) (map : StationMap n) : ℝ :=
  ((path.zip path.tail).map (fun q => distance (map q.1) (map q.2))).sum

theorem calculate_path_length_nil {n : ℕ} (map : StationMap n) :
    calculate_path_length [] map = 0 := rfl

theorem calculate_path_length_single {n : ℕ} (map : StationMap n) (a : Fin n) :
    calculate_path_length [a] map = 0 := rfl

theorem calculate_path_length_cons_cons {n : ℕ} (map : StationMap n) (a b : Fin n)
    (l : List (Fin n)) :
    calculate_path_length (a :: b :: l) map
      = distance (map a) (map b) + calculate_path_length (b :: l) map := by
  simp [calculate_path_length]

theorem calculate_path_length_nonneg {n : ℕ} (path : List (Fin n)) (map : StationMap n) :
    0 ≤ calculate_path_length path map := by
  match path with
  | [] => simp [calculate_path_length_nil]
  | [a] => simp [calculate_path_length_single]
  | a :: b :: l =>
      rw [calculate_path_length_cons_cons]
      have h1 := distance_nonneg (n := n) (map a) (map b)
      have h2 := calculate_path_length_nonneg (b :: l) map
      linarith

theorem calculate_path_length_concat {n : ℕ} (map : StationMap n) :
    ∀ (p : List (Fin n)) (u x : Fin n), p.getLast? = some u →
      calculate_path_length (p ++ [x]) map
        = calculate_path_length p map + distance (map u) (map x) := by
  intro p
  induction p with
  | nil => intro u x h; simp at h
  | cons a t ih =>
      intro u x h
      match t with
      | [] =>
          simp only [List.getLast?_singleton, Option.some.injEq] at h
          subst h
          simp [calculate_path_length_cons_cons, calculate_path_length_single,
            calculate_path_length_nil]
      | b :: t2 =>
          have hlast : (b :: t2).getLast? = some u := by
            rw [← h]
            simp [List.getLast?_cons_cons]
          have := ih u x hlast
          simp only [List.cons_append] at *
          rw [calculate_path_length_cons_cons, calculate_path_length_cons_cons, this]
          ring

theorem calculate_path_length_reverse {n : ℕ} (map : StationMap n) :
    ∀ (p : List (Fin n)), calculate_path_length p.reverse map = calculate_path_length p map := by
  intro p
  induction p with
  | nil => rfl
  | cons a t ih =>
      match t with
      | [] => rfl
      | b :: t2 =>
          have hlast : (b :: t2).reverse.getLast? = some b := by
            rw [List.getLast?_reverse]
            rfl
          calc calculate_path_length ((a :: b :: t2).reverse) map
              = calculate_path_length ((b :: t2).reverse ++ [a]) map := by
                simp
            _ = calculate_path_length ((b :: t2).reverse) map + distance (map b) (map a) :=
                calculate_path_length_concat map _ b a hlast
            _ = calculate_path_length (b :: t2) map + distance (map a) (map b) := by
                rw [ih, distance_comm]
            _ = calculate_path_length (a :: b :: t2) map := by
                rw [calculate_path_length_cons_cons]; ring

/-- Verdicts produced by the comparison block of `__main__`. -/
inductive Verdict
  | shortestDijkstra
  | shortestAStar
  | shortestBellman
  | longestDijkstra
  | longestAStar
  | longestBellman
  | same
deriving DecidableEq

/-- The comparison chain of the `__main__` block: six `elif` branches looking
for a strict minimum, then a strict maximum, and a final `else` reporting that
all algorithms found paths with the same length. -/
noncomputable def compareVerdict (ld la lb : ℝ) : Verdict :=
  if ld < la ∧ ld < lb then .shortestDijkstra
  else if la < ld ∧ la < lb then .shortestAStar
  else if lb < ld ∧ lb < la then .shortestBellman
  else if ld > la ∧ ld > lb then .longestDijkstra
  else if la > ld ∧ la > lb then .longestAStar
  else if lb > ld ∧ lb > la then .longestBellman
  else .same

theorem compareVerdict_same_iff (ld la lb : ℝ) :
    compareVerdict ld la lb = Verdict.same ↔ (ld = la ∧ la = lb) := by
  unfold compareVerdict
  split_ifs with h1 h2 h3 h4 h5 h6
  · simp only [reduceCtorEq, false_iff]
    intro h; obtain ⟨ha, hb⟩ := h; subst ha; subst hb; exact absurd h1.1 (lt_irrefl _)
  · simp only [reduceCtorEq, false_iff]
    intro h; obtain ⟨ha, hb⟩ := h; subst ha; subst hb; exact absurd h2.1 (lt_irrefl _)
  · simp only [reduceCtorEq, false_iff]
    intro h; obtain ⟨ha, hb⟩ := h; subst ha; subst hb; exact absurd h3.1 (lt_irrefl _)
  · simp only [reduceCtorEq, false_iff]
    intro h; obtain ⟨ha, hb⟩ := h; subst ha; subst hb; exact absurd h4.1 (lt_irrefl _)
  · simp only [reduceCtorEq, false_iff]
    intro h; obtain ⟨ha, hb⟩ := h; subst ha; subst hb; exact absurd h5.1 (lt_irrefl _)
  · simp only [reduceCtorEq, false_iff]
    intro h; obtain ⟨ha, hb⟩ := h; subst ha; subst hb; exact absurd h6.1 (lt_irrefl _)
  · simp only [true_iff]
    push_neg at h1 h2 h3 h4 h5 h6
    have hda : ld = la := by
      rcases lt_trichotomy ld la with h | h | h
      · have hbd := h1 h
        rcases eq_or_lt_of_le hbd with g | g
        · have := h5 h
          linarith
        · have := h3 g
          linarith
      · exact h
      · have hba := h2 h
        have hab := h3 (by linarith)
        have := h4 h
        linarith
    have hab : la = lb := by
      rcases lt_trichotomy la lb with h | h | h
      · have := h6 (by linarith)
        linarith
      · exact h
      · have := h3 (by linarith)
        linarith
    exact ⟨hda, hab⟩

theorem compareVerdict_strict_min_dijkstra {ld la lb : ℝ} (h1 : ld < la) (h2 : ld < lb) :
    compareVerdict ld la lb = Verdict.shortestDijkstra := by
  unfold compareVerdict
  rw [if_pos ⟨h1, h2⟩]

theorem compareVerdict_strict_min_astar {ld la lb : ℝ} (h1 : la < ld) (h2 : la < lb) :
    compareVerdict ld la lb = Verdict.shortestAStar := by
  unfold compareVerdict
  rw [if_neg (by intro h; exact absurd h.1 (not_lt.mpr h1.le)), if_pos ⟨h1, h2⟩]

theorem compareVerdict_strict_min_bellman {ld la lb : ℝ} (h1 : lb < ld) (h2 : lb < la) :
    compareVerdict ld la lb = Verdict.shortestBellman := by
  unfold compareVerdict
  rw [if_neg (by intro h; exact absurd h.2 (not_lt.mpr h1.le)),
    if_neg (by intro h; exact absurd h.2 (not_lt.mpr h2.le)), if_pos ⟨h1, h2⟩]

theorem compareVerdict_strict_max_dijkstra {ld la lb : ℝ} (h1 : la < ld) (h2 : lb < ld)
    (heq : la = lb) :
    compareVerdict ld la lb = Verdict.longestDijkstra := by
  unfold compareVerdict
  rw [if_neg (by intro h; exact absurd h.1 (not_lt.mpr h1.le)),
    if_neg (by intro h; rw [heq] at h; exact absurd h.2 (lt_irrefl lb)),
    if_neg (by intro h; rw [heq] at h; exact absurd h.2 (lt_irrefl lb)),
    if_pos ⟨h1, h2⟩]

theorem compareVerdict_strict_max_astar {ld la lb : ℝ} (h1 : ld < la) (h2 : lb < la)
    (heq : ld = lb) :
    compareVerdict ld la lb = Verdict.longestAStar := by
  unfold compareVerdict
  rw [if_neg (by intro h; rw [heq] at h; exact absurd h.2 (lt_irrefl lb)),
    if_neg (by intro h; exact absurd h.1 (not_lt.mpr h1.le)),
    if_neg (by intro h; rw [heq] at h; exact absurd h.1 (lt_irrefl lb)),
    if_neg (by intro h; exact absurd h.1 (not_lt.mpr h1.le)),
    if_pos ⟨h1, h2⟩]

theorem compareVerdict_strict_max_bellman {ld la lb : ℝ} (h1 : ld < lb) (h2 : la < lb)
    (heq : ld = la) :
    compareVerdict ld la lb = Verdict.longestBellman := by
  unfold compareVerdict
  rw [if_neg (by intro h; rw [heq] at h; exact absurd h.1 (lt_irrefl la)),
    if_neg (by intro h; rw [heq] at h; exact absurd h.1 (lt_irrefl la)),
    if_neg (by intro h; exact absurd h.1 (not_lt.mpr h1.le)),
    if_neg (by intro h; exact absurd h.2 (not_lt.mpr h1.le)),
    if_neg (by intro h; exact absurd h.2 (not_lt.mpr h2.le)),
    if_pos ⟨h1, h2⟩]

/-- Adjacency relation of the graph: station `b` appears among the links of
station `a`. -/
def isLinked {n : ℕ} (map : StationMap n) (a b : Fin n) : Prop := b ∈ (map a).links

/-- A route from `s` to `t`: a non-empty list of identifiers starting at `s`,
ending at `t`, whose consecutive pairs are linked. -/
def IsRoute {n : ℕ} (map : StationMap n) (s t : Fin n) (p : List (Fin n)) : Prop :=
  p ≠ [] ∧ p.head? = some s ∧ p.getLast? = some t ∧ p.Chain' (isLinked map)

/-- A path from `s` to `t` exists in the graph. -/
def Reachable {n : ℕ} (map : StationMap n) (s t : Fin n) : Prop :=
  ∃ p, IsRoute map s t p

theorem isRoute_single {n : ℕ} (map : StationMap n) (s : Fin n) :
    IsRoute map s s [s] := by
  refine ⟨by simp, rfl, rfl, ?_⟩
  simp

theorem reachable_self {n : ℕ} (map : StationMap n) (s : Fin n) : Reachable map s s :=
  ⟨[s], isRoute_single map s⟩

theorem isRoute_concat {n : ℕ} {map : StationMap n} {s u v : Fin n} {p : List (Fin n)}
    (hp : IsRoute map s u p) (huv : isLinked map u v) : IsRoute map s v (p ++ [v]) := by
  obtain ⟨hne, hhead, hlast, hchain⟩ := hp
  refine ⟨by simp, ?_, ?_, ?_⟩
  · cases p with
    | nil => exact absurd rfl hne
    | cons a t => simpa using hhead
  · simp
  · rw [List.chain'_append]
    refine ⟨hchain, by simp, ?_⟩
    intro x hx y hy
    simp only [List.head?_cons, Option.mem_def, Option.some.injEq] at hy
    rw [hlast] at hx
    simp only [Option.mem_def, Option.some.injEq] at hx
    subst hx; subst hy
    exact huv

theorem isRoute_length_concat {n : ℕ} {map : StationMap n} {s u v : Fin n}
    {p : List (Fin n)} (hp : IsRoute map s u p) :
    calculate_path_length (p ++ [v]) map
      = calculate_path_length p map + distance (map u) (map v) :=
  calculate_path_length_concat map p u v hp.2.2.1

theorem getLast?_append_cons {α : Type*} (l₁ : List α) (a : α) (l₂ : List α) :
    (l₁ ++ a :: l₂).getLast? = (a :: l₂).getLast? := by
  rw [List.getLast?_append]
  rcases h : (a :: l₂).getLast? with _ | v
  · rw [List.getLast?_eq_none_iff] at h
    simp at h
  · rfl

/-- A list that is not `Nodup` splits around a duplicated element. -/
theorem exists_dup_split {α : Type*} : ∀ (l : List α), ¬ l.Nodup →
    ∃ x l₁ l₂ l₃, l = l₁ ++ x :: (l₂ ++ x :: l₃) := by
  intro l
  induction l with
  | nil => intro h; simp at h
  | cons a t ih =>
      intro h
      rw [List.nodup_cons] at h
      by_cases ha : a ∈ t
      · obtain ⟨s1, t1, rfl⟩ := List.append_of_mem ha
        exact ⟨a, [], s1, t1, by simp⟩
      · have ht : ¬ t.Nodup := by tauto
        obtain ⟨x, l₁, l₂, l₃, rfl⟩ := ih ht
        exact ⟨x, a :: l₁, l₂, l₃, by simp⟩

theorem calculate_path_length_junction {n : ℕ} (map : StationMap n) :
    ∀ (l : List (Fin n)) (x : Fin n) (m : List (Fin n)),
      calculate_path_length (l ++ x :: m) map
        = calculate_path_length (l ++ [x]) map + calculate_path_length (x :: m) map := by
  intro l
  induction l with
  | nil => intro x m; simp [calculate_path_length_single]
  | cons a t ih =>
      intro x m
      match t with
      | [] =>
          simp only [List.nil_append, List.cons_append]
          rw [calculate_path_length_cons_cons, calculate_path_length_cons_cons,
            calculate_path_length_single]
          ring
      | b :: t2 =>
          have h1 := ih x m
          simp only [List.cons_append] at *
          rw [calculate_path_length_cons_cons, calculate_path_length_cons_cons, h1]
          ring

theorem isRoute_cut {n : ℕ} {map : StationMap n} {s t : Fin n} {x : Fin n}
    {l₁ l₂ l₃ : List (Fin n)} (hp : IsRoute map s t (l₁ ++ x :: (l₂ ++ x :: l₃))) :
    IsRoute map s t (l₁ ++ x :: l₃) ∧
      calculate_path_length (l₁ ++ x :: l₃) map
        ≤ calculate_path_length (l₁ ++ x :: (l₂ ++ x :: l₃)) map := by
  obtain ⟨hne, hhead, hlast, hchain⟩ := hp
  constructor
  · refine ⟨by simp, ?_, ?_, ?_⟩
    · cases l₁ with
      | nil => simpa using hhead
      | cons a u => simpa using hhead
    · have h1 : (l₁ ++ x :: (l₂ ++ x :: l₃)).getLast? = (x :: l₃).getLast? := by
        rw [show l₁ ++ x :: (l₂ ++ x :: l₃) = (l₁ ++ x :: l₂) ++ x :: l₃ by simp,
          getLast?_append_cons]
      have h2 : (l₁ ++ x :: l₃).getLast? = (x :: l₃).getLast? :=
        getLast?_append_cons l₁ x l₃
      rw [h2, ← h1, hlast]
    · rw [List.chain'_append] at hchain ⊢
      obtain ⟨hc1, hc2, hc3⟩ := hchain
      rw [show x :: (l₂ ++ x :: l₃) = (x :: l₂) ++ x :: l₃ by simp,
        List.chain'_append] at hc2
      refine ⟨hc1, hc2.2.1, ?_⟩
      intro y hy z hz
      exact hc3 y hy z (by simpa using hz)
  · rw [calculate_path_length_junction map l₁ x (l₂ ++ x :: l₃),
      calculate_path_length_junction map l₁ x l₃,
      show x :: (l₂ ++ x :: l₃) = (x :: l₂) ++ x :: l₃ by simp,
      calculate_path_length_junction map (x :: l₂) x l₃]
    have := calculate_path_length_nonneg ((x :: l₂) ++ [x]) map
    linarith

/-- Any route contains a duplicate-free route between the same endpoints whose
length is no larger. -/
theorem isRoute_shorten {n : ℕ} (map : StationMap n) (s t : Fin n) :
    ∀ (N : ℕ) (p : List (Fin n)), p.length ≤ N → IsRoute map s t p →
      ∃ q, IsRoute map s t q ∧ q.Nodup ∧
        calculate_path_length q map ≤ calculate_path_length p map := by
  intro N
  induction N with
  | zero =>
      intro p hl hr
      have : p = [] := by
        cases p with
        | nil => rfl
        | cons a u => simp at hl
      exact absurd this hr.1
  | succ N ih =>
      intro p hl hr
      by_cases hnd : p.Nodup
      · exact ⟨p, hr, hnd, le_refl _⟩
      · obtain ⟨x, l₁, l₂, l₃, rfl⟩ := exists_dup_split p hnd
        obtain ⟨hq, hle⟩ := isRoute_cut hr
        have hshort : (l₁ ++ x :: l₃).length ≤ N := by
          simp only [List.length_append, List.length_cons] at hl ⊢
          omega
        obtain ⟨q, hq2, hnd2, hle2⟩ := ih _ hshort hq
        exact ⟨q, hq2, hnd2, le_trans hle2 hle⟩

theorem reachable_nodup_route {n : ℕ} {map : StationMap n} {s t : Fin n}
    (h : Reachable map s t) :
    ∃ q, IsRoute map s t q ∧ q.Nodup ∧ q.length ≤ n := by
  obtain ⟨p, hp⟩ := h
  obtain ⟨q, hq, hnd, _⟩ := isRoute_shorten map s t p.length p (le_refl _) hp
  refine ⟨q, hq, hnd, ?_⟩
  have := hnd.length_le_card
  simpa using this

/-- A priority-queue entry `(cost, station, path)` as pushed by Dijkstra and A*. -/
structure Entry (n : ℕ) where
  cost : ℝ
  node : Fin n
  path : List (Fin n)

/-- Minimum extraction from the embedded priority queue (`heappop`): the
leftmost entry of minimal cost together with the remaining entries. -/
noncomputable def heappop {n : ℕ} : List (Entry n) → Option (Entry n × List (Entry n))
  | [] => none
  | e :: es =>
    match heappop es with
    | none => some (e, [])
    | some (m, rest) => if e.cost ≤ m.cost then some (e, es) else some (m, e :: rest)

theorem heappop_eq_none {n : ℕ} : ∀ (q : List (Entry n)), heappop q = none ↔ q = [] := by
  intro q
  cases q with
  | nil => simp [heappop]
  | cons e es =>
      simp only [heappop]
      cases h : heappop es with
      | none => simp
      | some p =>
          obtain ⟨m, rest⟩ := p
          by_cases hc : e.cost ≤ m.cost <;> simp [hc]

theorem heappop_spec {n : ℕ} : ∀ (q : List (Entry n)) (e : Entry n) (q2 : List (Entry n)),
    heappop q = some (e, q2) →
      q.Perm (e :: q2) ∧ ∀ f ∈ q, e.cost ≤ f.cost := by
  intro q
  induction q with
  | nil => intro e q2 h; simp [heappop] at h
  | cons a es ih =>
      intro e q2 h
      simp only [heappop] at h
      cases hes : heappop es with
      | none =>
          rw [hes] at h
          have hnil : es = [] := (heappop_eq_none es).mp hes
          have h2 : some (a, ([] : List (Entry n))) = some (e, q2) := h
          simp only [Option.some.injEq, Prod.mk.injEq] at h2
          obtain ⟨rfl, rfl⟩ := h2
          subst hnil
          exact ⟨List.Perm.refl _, by intro f hf; simp at hf; subst hf; exact le_refl _⟩
      | some p =>
          obtain ⟨m, rest⟩ := p
          rw [hes] at h
          obtain ⟨hperm, hmin⟩ := ih m rest hes
          have h2 : (if a.cost ≤ m.cost then some (a, es) else some (m, a :: rest))
              = some (e, q2) := h
          by_cases hc : a.cost ≤ m.cost
          · rw [if_pos hc] at h2
            simp only [Option.some.injEq, Prod.mk.injEq] at h2
            obtain ⟨rfl, rfl⟩ := h2
            refine ⟨List.Perm.refl _, ?_⟩
            intro f hf
            rcases List.mem_cons.mp hf with rfl | hf2
            · exact le_refl _
            · exact le_trans hc (hmin f hf2)
          · rw [if_neg hc] at h2
            simp only [Option.some.injEq, Prod.mk.injEq] at h2
            obtain ⟨rfl, rfl⟩ := h2
            constructor
            · exact (hperm.cons a).trans (List.Perm.swap m a rest)
            · intro f hf
              rcases List.mem_cons.mp hf with rfl | hf2
              · exact le_of_lt (lt_of_not_le hc)
              · exact hmin f hf2

theorem calculate_path_length_cons_head {n : ℕ} (map : StationMap n) (s h : Fin n)
    (l : List (Fin n)) (hh : l.head? = some h) :
    calculate_path_length (s :: l) map
      = distance (map s) (map h) + calculate_path_length l map := by
  cases l with
  | nil => simp at hh
  | cons b t =>
      simp only [List.head?_cons, Option.some.injEq] at hh
      rw [← hh]
      exact calculate_path_length_cons_cons map s b t

/-- Any route from inside a set `S` to outside `S` crosses a first edge leaving
`S`; the prefix up to that edge is itself a route, and the prefix length plus
the crossing edge weight is a lower bound on the route length. -/
theorem route_exit {n : ℕ} (map : StationMap n) (S : Finset (Fin n)) :
    ∀ (p : List (Fin n)) (s t : Fin n), IsRoute map s t p → s ∈ S → t ∉ S →
    ∃ (pre : List (Fin n)) (a b : Fin n),
      pre.getLast? = some a ∧ a ∈ S ∧ b ∉ S ∧
      IsRoute map s a pre ∧ isLinked map a b ∧
      calculate_path_length pre map + distance (map a) (map b)
        ≤ calculate_path_length p map := by
  intro p
  induction p with
  | nil => intro s t hp _ _; exact absurd rfl hp.1
  | cons x rest ih =>
      intro s t hp hs ht
      have hx : x = s := by
        have := hp.2.1
        simp only [List.head?_cons, Option.some.injEq] at this
        exact this
      subst hx
      cases rest with
      | nil =>
          have : t = x := by
            have := hp.2.2.1
            simp only [List.getLast?_singleton, Option.some.injEq] at this
            exact this.symm
          subst this
          exact absurd hs ht
      | cons b rest2 =>
          have hchain := hp.2.2.2
          rw [List.chain'_cons] at hchain
          have hlink : isLinked map x b := hchain.1
          have hrest : IsRoute map b t (b :: rest2) := by
            refine ⟨by simp, rfl, ?_, hchain.2⟩
            have := hp.2.2.1
            rwa [List.getLast?_cons_cons] at this
          by_cases hb : b ∈ S
          · obtain ⟨pre, a, b2, hlast, haS, hbS, hroute, hlink2, hlen⟩ := ih b t hrest hb ht
            have hprene : pre ≠ [] := hroute.1
            have hprehead : pre.head? = some b := hroute.2.1
            refine ⟨x :: pre, a, b2, ?_, haS, hbS, ?_, hlink2, ?_⟩
            · cases pre with
              | nil => exact absurd rfl hprene
              | cons y pre2 => rw [List.getLast?_cons_cons]; exact hlast
            · refine ⟨by simp, rfl, ?_, ?_⟩
              · cases pre with
                | nil => exact absurd rfl hprene
                | cons y pre2 => rw [List.getLast?_cons_cons]; exact hroute.2.2.1
              · cases pre with
                | nil => exact absurd rfl hprene
                | cons y pre2 =>
                    rw [List.chain'_cons]
                    refine ⟨?_, hroute.2.2.2⟩
                    have : y = b := by
                      simp only [List.head?_cons, Option.some.injEq] at hprehead
                      exact hprehead
                    subst this
                    exact hlink
            · have h1 : calculate_path_length (x :: pre) map
                  = distance (map x) (map b) + calculate_path_length pre map :=
                calculate_path_length_cons_head map x b pre hprehead
              have h2 : calculate_path_length (x :: b :: rest2) map
                  = distance (map x) (map b) + calculate_path_length (b :: rest2) map :=
                calculate_path_length_cons_cons map x b rest2
              rw [h1, h2]
              linarith
          · refine ⟨[x], x, b, rfl, hs, hb, isRoute_single map x, hlink, ?_⟩
            rw [calculate_path_length_single, calculate_path_length_cons_cons]
            have := calculate_path_length_nonneg (b :: rest2) map
            linarith

/-- One relaxation of a popped station's neighbor in Dijkstra's loop: compute
`tentative_cost = current_cost + distance(current, neighbor)`; if the neighbor
has no recorded best-known cost or the tentative cost improves it, record the
new cost and push `(tentative_cost, neighbor, current_path + [current])`. -/
noncomputable def dijkstraRelax {n : ℕ} (map : StationMap n) (c : ℝ) (u : Fin n)
    (p : List (Fin n)) (acc : List (Entry n) × (Fin n → Option ℝ)) (v : Fin n) :
    List (Entry n) × (Fin n → Option ℝ) :=
  match acc.2 v with
  | none => (acc.1 ++ [⟨c + distance (map u) (map v), v, p ++ [u]⟩],
      Function.update acc.2 v (some (c + distance (map u) (map v))))
  | some b =>
      if c + distance (map u) (map v) < b then
        (acc.1 ++ [⟨c + distance (map u) (map v), v, p ++ [u]⟩],
          Function.update acc.2 v (some (c + distance (map u) (map v))))
      else acc

/-- The main loop of `dijkstra_get_path`, with explicit fuel: pop the minimal
entry; if it is the end station return its path extended by the station;
otherwise relax all its neighbors and continue; return `[]` if the queue
empties. -/
noncomputable def dijkstraLoop {n : ℕ} (map : StationMap n) (endId : Fin n) :
    ℕ → List (Entry n) → (Fin n → Option ℝ) → Option (List (Fin n))
  | 0, _, _ => none
  | fuel + 1, q, best =>
    match heappop q with
    | none => some []
    | some (e, q2) =>
      if e.node = endId then some (e.path ++ [e.node])
      else
        dijkstraLoop map endId fuel
          ((map e.node).links.foldl (dijkstraRelax map e.cost e.node e.path) (q2, best)).1
          ((map e.node).links.foldl (dijkstraRelax map e.cost e.node e.path) (q2, best)).2

/-- Number of directed edges of the station map: pairs `(u, v)` with `v` among
the links of `u`. -/
def numEdges {n : ℕ} (map : StationMap n) : ℕ :=
  (Finset.univ.filter (fun q : Fin n × Fin n => q.2 ∈ (map q.1).links)).card

/-- Dijkstra's algorithm (`dijkstra_get_path`). The loop fuel `numEdges map + 2`
provably dominates the number of iterations the Python `while` loop performs:
an entry is pushed only when the best-known cost of its station strictly
decreases, which can happen at most once per directed edge. -/
noncomputable def dijkstra_get_path {n : ℕ} (start_id end_id : Fin n)
    (map : StationMap n) : Option (List (Fin n)) :=
  dijkstraLoop map end_id (numEdges map + 2)
    [⟨0, start_id, []⟩] (Function.update (fun _ => none) start_id (some 0))


/-- Case analysis of one `dijkstraRelax` step: either nothing changes and the
neighbor already has a recorded cost at most the tentative cost, or the
tentative cost strictly improves the record and a matching entry is pushed. -/
theorem dijkstraRelax_cases {n : ℕ} (map : StationMap n) (c : ℝ) (u : Fin n)
    (p : List (Fin n)) (q : List (Entry n)) (best : Fin n → Option ℝ) (v : Fin n) :
    (dijkstraRelax map c u p (q, best) v = (q, best) ∧
      ∃ b, best v = some b ∧ b ≤ c + distance (map u) (map v)) ∨
    (dijkstraRelax map c u p (q, best) v
        = (q ++ [⟨c + distance (map u) (map v), v, p ++ [u]⟩],
          Function.update best v (some (c + distance (map u) (map v)))) ∧
      ∀ b, best v = some b → c + distance (map u) (map v) < b) := by
  cases hb0 : best v with
  | none =>
      right
      constructor
      · unfold dijkstraRelax
        rw [show ((q, best).2 : Fin n → Option ℝ) = best from rfl, hb0]
      · intro b hb; cases hb
  | some b =>
      have hred : dijkstraRelax map c u p (q, best) v
          = if c + distance (map u) (map v) < b then
              (q ++ [⟨c + distance (map u) (map v), v, p ++ [u]⟩],
                Function.update best v (some (c + distance (map u) (map v))))
            else (q, best) := by
        unfold dijkstraRelax
        rw [show ((q, best).2 : Fin n → Option ℝ) = best from rfl, hb0]
      by_cases hc : c + distance (map u) (map v) < b
      · right
        rw [hred, if_pos hc]
        refine ⟨rfl, ?_⟩
        intro b2 hb2
        injection hb2 with hh
        rw [← hh]
        exact hc
      · left
        rw [hred, if_neg hc]
        exact ⟨rfl, b, rfl, not_lt.mp hc⟩

/-- Specification of folding `dijkstraRelax` over neighbors of a popped entry
`(c, u, p)` whose carried path `p ++ [u]` is a route from `start` of length
`c`. Conclusions: realizability of recorded costs, well-formedness of queue
entries, queue growth, monotonicity of recorded costs, coverage of the
processed neighbors, stability of already-optimal records, and existence of a
queue entry realizing any recorded cost. -/
theorem dijkstraRelax_fold_spec {n : ℕ} (map : StationMap n) (start : Fin n)
    (c : ℝ) (u : Fin n) (p : List (Fin n))
    (hroute : IsRoute map start u (p ++ [u]))
    (hlen : calculate_path_length (p ++ [u]) map = c) :
    ∀ (l : List (Fin n)) (q : List (Entry n)) (best : Fin n → Option ℝ),
      (∀ v ∈ l, isLinked map u v) →
      (∀ v b, best v = some b →
        ∃ p2, IsRoute map start v p2 ∧ calculate_path_length p2 map = b) →
      (∀ e ∈ q, IsRoute map start e.node (e.path ++ [e.node]) ∧
        calculate_path_length (e.path ++ [e.node]) map = e.cost ∧
        ∃ b, best e.node = some b ∧ b ≤ e.cost) →
      (∀ v b, (l.foldl (dijkstraRelax map c u p) (q, best)).2 v = some b →
        ∃ p2, IsRoute map start v p2 ∧ calculate_path_length p2 map = b) ∧
      (∀ e ∈ (l.foldl (dijkstraRelax map c u p) (q, best)).1,
        IsRoute map start e.node (e.path ++ [e.node]) ∧
        calculate_path_length (e.path ++ [e.node]) map = e.cost ∧
        ∃ b, (l.foldl (dijkstraRelax map c u p) (q, best)).2 e.node = some b ∧
          b ≤ e.cost) ∧
      (∀ e ∈ q, e ∈ (l.foldl (dijkstraRelax map c u p) (q, best)).1) ∧
      (∀ v, ((l.foldl (dijkstraRelax map c u p) (q, best)).2 v = none →
          best v = none) ∧
        (∀ b, best v = some b →
          ∃ t, (l.foldl (dijkstraRelax map c u p) (q, best)).2 v = some t ∧ t ≤ b)) ∧
      (∀ v ∈ l, ∃ t, (l.foldl (dijkstraRelax map c u p) (q, best)).2 v = some t ∧
        t ≤ c + distance (map u) (map v)) ∧
      (∀ v b, best v = some b →
        (∀ p2, IsRoute map start v p2 → b ≤ calculate_path_length p2 map) →
        (l.foldl (dijkstraRelax map c u p) (q, best)).2 v = some b) ∧
      (∀ v b, (l.foldl (dijkstraRelax map c u p) (q, best)).2 v = some b →
        best v = some b ∨
          ∃ e ∈ (l.foldl (dijkstraRelax map c u p) (q, best)).1,
            e.node = v ∧ e.cost = b) := by
  intro l
  induction l with
  | nil =>
      intro q best _ hreal hent
      simp only [List.foldl_nil]
      refine ⟨hreal, hent, fun e he => he, ?_, ?_, ?_, ?_⟩
      · intro v; exact ⟨fun h => h, fun b hb => ⟨b, hb, le_refl _⟩⟩
      · intro v hv; simp at hv
      · intro v b hb _; exact hb
      · intro v b hb; exact Or.inl hb
  | cons v0 l ih =>
      intro q best hl hreal hent
      have hlink0 : isLinked map u v0 := hl v0 (List.mem_cons_self v0 l)
      have hltail : ∀ v ∈ l, isLinked map u v := fun v hv => hl v (List.mem_cons_of_mem v0 hv)
      have hnewroute : IsRoute map start v0 ((p ++ [u]) ++ [v0]) :=
        isRoute_concat hroute hlink0
      have hnewlen : calculate_path_length ((p ++ [u]) ++ [v0]) map
          = c + distance (map u) (map v0) := by
        rw [isRoute_length_concat hroute, hlen]
      simp only [List.foldl_cons]
      rcases dijkstraRelax_cases map c u p q best v0 with
        ⟨heq, b0, hb0, hb0le⟩ | ⟨heq, himp⟩
      · rw [heq]
        obtain ⟨c1, c2, c3, c4, c5, c6, c7⟩ := ih q best hltail hreal hent
        refine ⟨c1, c2, c3, c4, ?_, c6, c7⟩
        intro v hv
        rcases List.mem_cons.mp hv with rfl | hv2
        · obtain ⟨t, ht, htle⟩ := (c4 v).2 b0 hb0
          exact ⟨t, ht, le_trans htle hb0le⟩
        · exact c5 v hv2
      · rw [heq]
        have hreal1 : ∀ v b,
            Function.update best v0 (some (c + distance (map u) (map v0))) v = some b →
            ∃ p2, IsRoute map start v p2 ∧ calculate_path_length p2 map = b := by
          intro v b hb
          by_cases hv : v = v0
          · subst hv
            rw [Function.update_same] at hb
            cases hb
            exact ⟨(p ++ [u]) ++ [v], hnewroute, hnewlen⟩
          · rw [Function.update_noteq hv] at hb
            exact hreal v b hb
        have hent1 : ∀ e ∈ q ++ [⟨c + distance (map u) (map v0), v0, p ++ [u]⟩],
            IsRoute map start e.node (e.path ++ [e.node]) ∧
            calculate_path_length (e.path ++ [e.node]) map = e.cost ∧
            ∃ b, Function.update best v0 (some (c + distance (map u) (map v0))) e.node
              = some b ∧ b ≤ e.cost := by
          intro e he
          rcases List.mem_append.mp he with he2 | he2
          · obtain ⟨her, hel, b, hb, hble⟩ := hent e he2
            refine ⟨her, hel, ?_⟩
            by_cases hv : e.node = v0
            · rw [hv, Function.update_same]
              refine ⟨c + distance (map u) (map v0), rfl, ?_⟩
              rw [hv] at hb
              exact le_trans (le_of_lt (himp b hb)) hble
            · rw [Function.update_noteq hv]
              exact ⟨b, hb, hble⟩
          · simp only [List.mem_singleton] at he2
            subst he2
            exact ⟨hnewroute, hnewlen,
              c + distance (map u) (map v0), Function.update_same _ _ _, le_refl _⟩
        obtain ⟨c1, c2, c3, c4, c5, c6, c7⟩ := ih _ _ hltail hreal1 hent1
        refine ⟨c1, c2, ?_, ?_, ?_, ?_, ?_⟩
        · intro e he
          exact c3 e (List.mem_append.mpr (Or.inl he))
        · intro v
          constructor
          · intro hv
            have hv2 := (c4 v).1 hv
            by_cases hveq : v = v0
            · subst hveq
              rw [Function.update_same] at hv2
              cases hv2
            · rwa [Function.update_noteq hveq] at hv2
          · intro b hb
            by_cases hveq : v = v0
            · subst hveq
              obtain ⟨t, ht, htle⟩ := (c4 v).2 _ (Function.update_same v _ best)
              exact ⟨t, ht, le_trans htle (le_of_lt (himp b hb))⟩
            · obtain ⟨t, ht, htle⟩ := (c4 v).2 b
                (by rw [Function.update_noteq hveq]; exact hb)
              exact ⟨t, ht, htle⟩
        · intro v hv
          rcases List.mem_cons.mp hv with rfl | hv2
          · obtain ⟨t, ht, htle⟩ := (c4 v).2 _ (Function.update_same v _ best)
            exact ⟨t, ht, htle⟩
          · exact c5 v hv2
        · intro v b hb hopt
          have hvne : v ≠ v0 := by
            intro hveq
            subst hveq
            have hub := hopt _ hnewroute
            rw [hnewlen] at hub
            exact absurd (himp b hb) (not_lt.mpr hub)
          exact c6 v b (by rw [Function.update_noteq hvne]; exact hb) hopt
        · intro v b hb
          rcases c7 v b hb with hb2 | hb2
          · by_cases hveq : v = v0
            · subst hveq
              rw [Function.update_same] at hb2
              cases hb2
              right
              refine ⟨⟨c + distance (map u) (map v), v, p ++ [u]⟩, ?_, rfl, rfl⟩
              exact c3 _ (List.mem_append.mpr (Or.inr (List.mem_singleton.mpr rfl)))
            · rw [Function.update_noteq hveq] at hb2
              exact Or.inl hb2
          · exact Or.inr hb2

/-- Loop invariant of the embedded Dijkstra loop. `S` is the ghost set of
genuinely settled stations (stations popped with their optimal cost). -/
structure DijkstraInv {n : ℕ} (map : StationMap n) (start endId : Fin n)
    (S : Finset (Fin n)) (q : List (Entry n)) (best : Fin n → Option ℝ) : Prop where
  start_mem : start ∈ S
  end_not_mem : endId ∉ S
  settled : ∀ v ∈ S, ∃ b, best v = some b ∧
    ∀ p, IsRoute map start v p → b ≤ calculate_path_length p map
  entries : ∀ e ∈ q, IsRoute map start e.node (e.path ++ [e.node]) ∧
    calculate_path_length (e.path ++ [e.node]) map = e.cost ∧
    ∃ b, best e.node = some b ∧ b ≤ e.cost
  realizable : ∀ v b, best v = some b →
    ∃ p, IsRoute map start v p ∧ calculate_path_length p map = b
  frontier_entry : ∀ v, v ∉ S → ∀ b, best v = some b →
    ∃ e ∈ q, e.node = v ∧ e.cost = b
  frontier_edge : ∀ u ∈ S, ∀ v, isLinked map u v →
    ∃ bu bv, best u = some bu ∧ best v = some bv ∧
      bv ≤ bu + distance (map u) (map v)

/-- When the popped entry's station is not yet settled, the popped cost equals
the recorded best-known cost of the station and is optimal over all routes. -/
theorem dijkstra_pop_optimal {n : ℕ} {map : StationMap n} {start endId : Fin n}
    {S : Finset (Fin n)} {q : List (Entry n)} {best : Fin n → Option ℝ}
    (inv : DijkstraInv map start endId S q best)
    {e : Entry n} {q2 : List (Entry n)} (hpop : heappop q = some (e, q2))
    (hnot : e.node ∉ S) :
    best e.node = some e.cost ∧
      ∀ p, IsRoute map start e.node p → e.cost ≤ calculate_path_length p map := by
  obtain ⟨hperm, hmin⟩ := heappop_spec q e q2 hpop
  have hein : e ∈ q := hperm.mem_iff.mpr (List.mem_cons_self e q2)
  obtain ⟨hroute, hlen, b, hb, hble⟩ := inv.entries e hein
  obtain ⟨e2, he2q, he2n, he2c⟩ := inv.frontier_entry e.node hnot b hb
  have hcb : e.cost ≤ b := he2c ▸ hmin e2 he2q
  have hbc : b = e.cost := le_antisymm hble hcb
  constructor
  · rw [hb, hbc]
  · intro p hp
    obtain ⟨pre, a, bb, hlast, haS, hbS, hpre, hlink, hlenle⟩ :=
      route_exit map S p start e.node hp inv.start_mem hnot
    obtain ⟨ba, hba, hopt_a⟩ := inv.settled a haS
    obtain ⟨ba2, bbv, hba2, hbbv, hedge⟩ := inv.frontier_edge a haS bb hlink
    have hba_eq : ba2 = ba := by
      rw [hba] at hba2
      exact (Option.some.inj hba2).symm
    obtain ⟨e3, he3q, he3n, he3c⟩ := inv.frontier_entry bb hbS bbv hbbv
    have h1 : e.cost ≤ bbv := he3c ▸ hmin e3 he3q
    have h2 : ba ≤ calculate_path_length pre map := hopt_a pre hpre
    have h3 := distance_nonneg (map a) (map bb)
    rw [hba_eq] at hedge
    linarith

/-- One-step soundness of the Dijkstra loop: from any state satisfying the
invariant, if the loop returns, the result is `[]` with the end unreachable,
or an optimal route from start to end. -/
theorem dijkstraLoop_sound {n : ℕ} (map : StationMap n) (start endId : Fin n) :
    ∀ (fuel : ℕ) (S : Finset (Fin n)) (q : List (Entry n)) (best : Fin n → Option ℝ),
      DijkstraInv map start endId S q best →
      ∀ r, dijkstraLoop map endId fuel q best = some r →
        (r = [] ∧ ¬ Reachable map start endId) ∨
        (IsRoute map start endId r ∧
          ∀ p, IsRoute map start endId p →
            calculate_path_length r map ≤ calculate_path_length p map) := by
  intro fuel
  induction fuel with
  | zero =>
      intro S q best _ r hr
      exact absurd hr (by simp [dijkstraLoop])
  | succ fuel ih =>
      intro S q best inv r hr
      have hr2 : (match heappop q with
          | none => some ([] : List (Fin n))
          | some (e, q2) =>
            if e.node = endId then some (e.path ++ [e.node])
            else
              dijkstraLoop map endId fuel
                ((map e.node).links.foldl (dijkstraRelax map e.cost e.node e.path)
                  (q2, best)).1
                ((map e.node).links.foldl (dijkstraRelax map e.cost e.node e.path)
                  (q2, best)).2) = some r := hr
      cases hpop : heappop q with
      | none =>
          rw [hpop] at hr2
          have hqnil : q = [] := (heappop_eq_none q).mp hpop
          left
          have hrnil : r = [] := (Option.some.inj hr2).symm
          refine ⟨hrnil, ?_⟩
          rintro ⟨p, hp⟩
          obtain ⟨pre, a, bb, hlast, haS, hbS, hpre, hlink, hlenle⟩ :=
            route_exit map S p start endId hp inv.start_mem inv.end_not_mem
          obtain ⟨ba, bbv, hba, hbbv, hedge⟩ := inv.frontier_edge a haS bb hlink
          obtain ⟨e3, he3q, _, _⟩ := inv.frontier_entry bb hbS bbv hbbv
          rw [hqnil] at he3q
          exact absurd he3q (List.not_mem_nil e3)
      | some pr =>
          obtain ⟨e, q2⟩ := pr
          rw [hpop] at hr2
          have hr3 : (if e.node = endId then some (e.path ++ [e.node])
              else
                dijkstraLoop map endId fuel
                  ((map e.node).links.foldl (dijkstraRelax map e.cost e.node e.path)
                    (q2, best)).1
                  ((map e.node).links.foldl (dijkstraRelax map e.cost e.node e.path)
                    (q2, best)).2) = some r := hr2
          obtain ⟨hperm, hmin⟩ := heappop_spec q e q2 hpop
          have hein : e ∈ q := hperm.mem_iff.mpr (List.mem_cons_self e q2)
          have hsub : ∀ f ∈ q2, f ∈ q := fun f hf =>
            hperm.mem_iff.mpr (List.mem_cons_of_mem e hf)
          obtain ⟨heroute, helen, be, hbe0, hbele⟩ := inv.entries e hein
          by_cases hend : e.node = endId
          · rw [if_pos hend] at hr3
            have hrr : r = e.path ++ [e.node] := (Option.some.inj hr3).symm
            right
            subst hrr
            subst hend
            have hnotS : e.node ∉ S := inv.end_not_mem
            obtain ⟨_, hopt⟩ := dijkstra_pop_optimal inv hpop hnotS
            refine ⟨heroute, ?_⟩
            intro p hp
            rw [helen]
            exact hopt p hp
          · rw [if_neg hend] at hr3
            have hl : ∀ v ∈ (map e.node).links, isLinked map e.node v := fun v hv => hv
            have hentq2 : ∀ f ∈ q2, IsRoute map start f.node (f.path ++ [f.node]) ∧
                calculate_path_length (f.path ++ [f.node]) map = f.cost ∧
                ∃ b, best f.node = some b ∧ b ≤ f.cost :=
              fun f hf => inv.entries f (hsub f hf)
            obtain ⟨c1, c2, c3, c4, c5, c6, c7⟩ :=
              dijkstraRelax_fold_spec map start e.cost e.node e.path heroute helen
                (map e.node).links q2 best hl inv.realizable hentq2
            by_cases hS : e.node ∈ S
            · -- stale pop: the settled set is unchanged
              refine ih S _ _ ?_ r hr3
              refine ⟨inv.start_mem, inv.end_not_mem, ?_, c2, c1, ?_, ?_⟩
              · intro v hv
                obtain ⟨b, hb, hopt⟩ := inv.settled v hv
                exact ⟨b, c6 v b hb hopt, hopt⟩
              · intro v hvS b hb
                rcases c7 v b hb with hb2 | hb2
                · obtain ⟨e4, he4q, he4n, he4c⟩ := inv.frontier_entry v hvS b hb2
                  have he4ne : e4 ≠ e := by
                    intro heq
                    rw [heq] at he4n
                    exact hvS (he4n ▸ hS)
                  have he4q2 : e4 ∈ q2 := by
                    rcases List.mem_cons.mp (hperm.mem_iff.mp he4q) with heq | h2
                    · exact absurd heq he4ne
                    · exact h2
                  exact ⟨e4, c3 e4 he4q2, he4n, he4c⟩
                · exact hb2
              · intro u huS v hlink
                obtain ⟨bu, bv, hbu, hbv, hedge⟩ := inv.frontier_edge u huS v hlink
                obtain ⟨bu0, hbu0, hoptu⟩ := inv.settled u huS
                have : bu0 = bu := by
                  rw [hbu] at hbu0
                  exact (Option.some.inj hbu0).symm
                subst this
                obtain ⟨t, ht, htle⟩ := (c4 v).2 bv hbv
                exact ⟨bu0, t, c6 u bu0 hbu hoptu, ht, le_trans htle hedge⟩
            · -- genuine pop: settle `e.node`
              obtain ⟨hbe, hopt⟩ := dijkstra_pop_optimal inv hpop hS
              refine ih (insert e.node S) _ _ ?_ r hr3
              refine ⟨Finset.mem_insert_of_mem inv.start_mem, ?_, ?_, c2, c1, ?_, ?_⟩
              · intro hmem
                rcases Finset.mem_insert.mp hmem with heq | hmem2
                · exact hend heq.symm
                · exact inv.end_not_mem hmem2
              · intro v hv
                rcases Finset.mem_insert.mp hv with rfl | hv2
                · exact ⟨e.cost, c6 e.node e.cost hbe hopt, hopt⟩
                · obtain ⟨b, hb, hoptv⟩ := inv.settled v hv2
                  exact ⟨b, c6 v b hb hoptv, hoptv⟩
              · intro v hvS b hb
                have hvne : v ≠ e.node := fun heq =>
                  hvS (heq ▸ Finset.mem_insert_self e.node S)
                have hvS2 : v ∉ S := fun h2 => hvS (Finset.mem_insert_of_mem h2)
                rcases c7 v b hb with hb2 | hb2
                · obtain ⟨e4, he4q, he4n, he4c⟩ := inv.frontier_entry v hvS2 b hb2
                  have he4ne : e4 ≠ e := by
                    intro heq
                    rw [heq] at he4n
                    exact hvne he4n.symm
                  have he4q2 : e4 ∈ q2 := by
                    rcases List.mem_cons.mp (hperm.mem_iff.mp he4q) with heq | h2
                    · exact absurd heq he4ne
                    · exact h2
                  exact ⟨e4, c3 e4 he4q2, he4n, he4c⟩
                · exact hb2
              · intro u huS v hlink
                rcases Finset.mem_insert.mp huS with rfl | huS2
                · obtain ⟨t, ht, htle⟩ := c5 v hlink
                  exact ⟨e.cost, t, c6 e.node e.cost hbe hopt, ht, htle⟩
                · obtain ⟨bu, bv, hbu, hbv, hedge⟩ := inv.frontier_edge u huS2 v hlink
                  obtain ⟨bu0, hbu0, hoptu⟩ := inv.settled u huS2
                  have : bu0 = bu := by
                    rw [hbu] at hbu0
                    exact (Option.some.inj hbu0).symm
                  subst this
                  obtain ⟨t, ht, htle⟩ := (c4 v).2 bv hbv
                  exact ⟨bu0, t, c6 u bu0 hbu hoptu, ht, le_trans htle hedge⟩

theorem dijkstraLoop_succ {n : ℕ} (map : StationMap n) (endId : Fin n) (fuel : ℕ)
    (q : List (Entry n)) (best : Fin n → Option ℝ) :
    dijkstraLoop map endId (fuel + 1) q best
      = match heappop q with
        | none => some []
        | some (e, q2) =>
          if e.node = endId then some (e.path ++ [e.node])
          else dijkstraLoop map endId fuel
            ((map e.node).links.foldl (dijkstraRelax map e.cost e.node e.path) (q2, best)).1
            ((map e.node).links.foldl (dijkstraRelax map e.cost e.node e.path) (q2, best)).2
      := rfl

/-- Querying Dijkstra with equal start and end returns the singleton path. -/
theorem dijkstra_start_eq_end {n : ℕ} (s : Fin n) (map : StationMap n) :
    dijkstra_get_path s s map = some [s] := by
  unfold dijkstra_get_path
  rw [show numEdges map + 2 = (numEdges map + 1) + 1 from rfl, dijkstraLoop_succ]
  rw [show heappop [(⟨0, s, []⟩ : Entry n)]
      = some (⟨0, s, []⟩, ([] : List (Entry n))) from rfl]
  show (if s = s then some ([] ++ [s])
      else dijkstraLoop map s (numEdges map + 1)
        ((map s).links.foldl (dijkstraRelax map 0 s [])
          ([], Function.update (fun _ => none) s (some 0))).1
        ((map s).links.foldl (dijkstraRelax map 0 s [])
          ([], Function.update (fun _ => none) s (some 0))).2) = some [s]
  rw [if_pos rfl]
  rfl

/-- Soundness of the embedded Dijkstra: whenever the fueled run returns, the
result is either `[]` with the end unreachable, or an optimal route. -/
theorem dijkstra_get_path_sound {n : ℕ} (map : StationMap n) (start endId : Fin n) :
    ∀ r, dijkstra_get_path start endId map = some r →
      (r = [] ∧ ¬ Reachable map start endId) ∨
      (IsRoute map start endId r ∧
        ∀ p, IsRoute map start endId p →
          calculate_path_length r map ≤ calculate_path_length p map) := by
  intro r hr
  by_cases hse : start = endId
  · subst hse
    rw [dijkstra_start_eq_end] at hr
    have hrr : r = [start] := (Option.some.inj hr).symm
    subst hrr
    right
    refine ⟨isRoute_single map start, ?_⟩
    intro p _
    rw [calculate_path_length_single]
    exact calculate_path_length_nonneg p map
  · unfold dijkstra_get_path at hr
    rw [show numEdges map + 2 = (numEdges map + 1) + 1 from rfl, dijkstraLoop_succ] at hr
    rw [show heappop [(⟨0, start, []⟩ : Entry n)]
        = some (⟨0, start, []⟩, ([] : List (Entry n))) from rfl] at hr
    have hr2 : (if start = endId then some ([] ++ [start])
        else dijkstraLoop map endId (numEdges map + 1)
          ((map start).links.foldl (dijkstraRelax map 0 start [])
            ([], Function.update (fun _ => none) start (some 0))).1
          ((map start).links.foldl (dijkstraRelax map 0 start [])
            ([], Function.update (fun _ => none) start (some 0))).2) = some r := hr
    rw [if_neg hse] at hr2
    have hroute0 : IsRoute map start start ([] ++ [start]) := isRoute_single map start
    have hlen0 : calculate_path_length ([] ++ [start]) map = 0 :=
      calculate_path_length_single map start
    have hreal0 : ∀ v b, Function.update (fun _ => none) start (some (0 : ℝ)) v = some b →
        ∃ p2, IsRoute map start v p2 ∧ calculate_path_length p2 map = b := by
      intro v b hb
      by_cases hv : v = start
      · subst hv
        rw [Function.update_same] at hb
        exact ⟨[v], isRoute_single map v, by
          rw [calculate_path_length_single]
          exact Option.some.inj hb⟩
      · rw [Function.update_noteq hv] at hb
        cases hb
    have hent0 : ∀ e ∈ ([] : List (Entry n)),
        IsRoute map start e.node (e.path ++ [e.node]) ∧
        calculate_path_length (e.path ++ [e.node]) map = e.cost ∧
        ∃ b, Function.update (fun _ => none) start (some (0 : ℝ)) e.node = some b ∧
          b ≤ e.cost := by
      intro e he
      exact absurd he (List.not_mem_nil e)
    obtain ⟨c1, c2, c3, c4, c5, c6, c7⟩ :=
      dijkstraRelax_fold_spec map start 0 start [] hroute0 hlen0
        (map start).links [] (Function.update (fun _ => none) start (some 0))
        (fun v hv => hv) hreal0 hent0
    have hbest0 : Function.update (fun _ => none) start (some (0 : ℝ)) start = some 0 :=
      Function.update_same _ _ _
    have hopt0 : ∀ p2, IsRoute map start start p2 →
        (0 : ℝ) ≤ calculate_path_length p2 map :=
      fun p2 _ => calculate_path_length_nonneg p2 map
    have hsettled0 := c6 start 0 hbest0 hopt0
    refine dijkstraLoop_sound map start endId (numEdges map + 1) {start} _ _ ?_ r hr2
    refine ⟨Finset.mem_singleton_self start, ?_, ?_, c2, c1, ?_, ?_⟩
    · intro hmem
      exact hse (Finset.mem_singleton.mp hmem).symm
    · intro v hv
      have hv2 : v = start := Finset.mem_singleton.mp hv
      subst hv2
      exact ⟨0, hsettled0, hopt0⟩
    · intro v hvS b hb
      rcases c7 v b hb with hb2 | hb2
      · by_cases hv : v = start
        · exact absurd (hv ▸ Finset.mem_singleton_self start) hvS
        · rw [Function.update_noteq hv] at hb2
          cases hb2
      · exact hb2
    · intro u huS v hlink
      have hu2 : u = start := Finset.mem_singleton.mp huS
      subst hu2
      obtain ⟨t, ht, htle⟩ := c5 v hlink
      refine ⟨0, t, hsettled0, ht, ?_⟩
      rw [zero_add] at htle
      rw [zero_add]
      exact htle

/-- The finite set of directed edges of the station map. -/
def edgeFinset {n : ℕ} (map : StationMap n) : Finset (Fin n × Fin n) :=
  Finset.univ.filter (fun pr => pr.2 ∈ (map pr.1).links)

theorem numEdges_eq_card {n : ℕ} (map : StationMap n) :
    numEdges map = (edgeFinset map).card := rfl

/-- Counting version of the relaxation fold: every pushed entry consumes a
fresh directed edge (a successful relaxation of an edge prevents any later
successful relaxation of the same edge at the same or larger popped cost), so
the queue growth is bounded by the growth of the used-edge set `U`. -/
theorem dijkstraRelax_fold_count {n : ℕ} (map : StationMap n) (c : ℝ) (u : Fin n)
    (p : List (Fin n)) :
    ∀ (l : List (Fin n)) (q : List (Entry n)) (best : Fin n → Option ℝ)
      (U : Finset (Fin n × Fin n)),
      (∀ v ∈ l, isLinked map u v) →
      (∀ e ∈ q, c ≤ e.cost) →
      (∀ pr ∈ U, pr.2 ∈ (map pr.1).links ∧ ∃ b, best pr.2 = some b ∧
        b ≤ c + distance (map pr.1) (map pr.2)) →
      ∃ U2 : Finset (Fin n × Fin n), U ⊆ U2 ∧
        (∀ pr ∈ U2, pr.2 ∈ (map pr.1).links ∧ ∃ b,
          (l.foldl (dijkstraRelax map c u p) (q, best)).2 pr.2 = some b ∧
          b ≤ c + distance (map pr.1) (map pr.2)) ∧
        (∀ e ∈ (l.foldl (dijkstraRelax map c u p) (q, best)).1, c ≤ e.cost) ∧
        (l.foldl (dijkstraRelax map c u p) (q, best)).1.length + U.card
          ≤ q.length + U2.card := by
  intro l
  induction l with
  | nil =>
      intro q best U _ hq hU
      exact ⟨U, Finset.Subset.refl U, hU, hq, le_refl _⟩
  | cons v0 l ih =>
      intro q best U hl hq hU
      have hlink0 : isLinked map u v0 := hl v0 (List.mem_cons_self v0 l)
      have hltail : ∀ v ∈ l, isLinked map u v := fun v hv => hl v (List.mem_cons_of_mem v0 hv)
      simp only [List.foldl_cons]
      rcases dijkstraRelax_cases map c u p q best v0 with
        ⟨heq, b0, hb0, hb0le⟩ | ⟨heq, himp⟩
      · rw [heq]
        exact ih q best U hltail hq hU
      · rw [heq]
        have hw := distance_nonneg (map u) (map v0)
        have hnotU : (u, v0) ∉ U := by
          intro hmem
          obtain ⟨_, b, hb, hble⟩ := hU (u, v0) hmem
          exact absurd (himp b hb) (not_lt.mpr hble)
        have hq1 : ∀ e ∈ q ++ [⟨c + distance (map u) (map v0), v0, p ++ [u]⟩],
            c ≤ e.cost := by
          intro e he
          rcases List.mem_append.mp he with he2 | he2
          · exact hq e he2
          · simp only [List.mem_singleton] at he2
            subst he2
            simpa using hw
        have hU1 : ∀ pr ∈ insert (u, v0) U, pr.2 ∈ (map pr.1).links ∧ ∃ b,
            Function.update best v0 (some (c + distance (map u) (map v0))) pr.2
              = some b ∧ b ≤ c + distance (map pr.1) (map pr.2) := by
          intro pr hpr
          rcases Finset.mem_insert.mp hpr with rfl | hpr2
          · refine ⟨hlink0, c + distance (map u) (map v0), ?_, le_refl _⟩
            exact Function.update_same _ _ _
          · obtain ⟨hprl, b, hb, hble⟩ := hU pr hpr2
            refine ⟨hprl, ?_⟩
            by_cases hv : pr.2 = v0
            · refine ⟨c + distance (map u) (map v0), ?_, ?_⟩
              · rw [hv, Function.update_same]
              · have hb2 : best v0 = some b := hv ▸ hb
                exact le_trans (le_of_lt (himp b hb2)) hble
            · rw [Function.update_noteq hv]
              exact ⟨b, hb, hble⟩
        obtain ⟨U2, hsub2, hU2, hq2, hcount⟩ := ih _ _ (insert (u, v0) U) hltail hq1 hU1
        refine ⟨U2, ?_, hU2, hq2, ?_⟩
        · exact fun x hx => hsub2 (Finset.mem_insert_of_mem hx)
        · have hcard : (insert (u, v0) U).card = U.card + 1 :=
            Finset.card_insert_of_not_mem hnotU
          rw [hcard] at hcount
          simp only [List.length_append, List.length_singleton] at hcount ⊢
          omega

/-- The Dijkstra loop completes whenever the fuel exceeds the queue size plus
the number of directed edges not yet consumed by a successful relaxation. -/
theorem dijkstraLoop_total {n : ℕ} (map : StationMap n) (endId : Fin n) :
    ∀ (fuel : ℕ) (q : List (Entry n)) (best : Fin n → Option ℝ) (c0 : ℝ)
      (U : Finset (Fin n × Fin n)),
      (∀ e ∈ q, c0 ≤ e.cost) →
      (∀ pr ∈ U, pr.2 ∈ (map pr.1).links ∧ ∃ b, best pr.2 = some b ∧
        b ≤ c0 + distance (map pr.1) (map pr.2)) →
      q.length + (numEdges map - U.card) < fuel →
      (dijkstraLoop map endId fuel q best).isSome := by
  intro fuel
  induction fuel with
  | zero =>
      intro q best c0 U _ _ hM
      exact absurd hM (by omega)
  | succ fuel ih =>
      intro q best c0 U hq hU hM
      rw [dijkstraLoop_succ]
      cases hpop : heappop q with
      | none => simp
      | some pr =>
          obtain ⟨e, q2⟩ := pr
          by_cases hend : e.node = endId
          · simp [hend]
          · simp only [hend, if_false]
            obtain ⟨hperm, hmin⟩ := heappop_spec q e q2 hpop
            have hein : e ∈ q := hperm.mem_iff.mpr (List.mem_cons_self e q2)
            have hsub : ∀ f ∈ q2, f ∈ q := fun f hf =>
              hperm.mem_iff.mpr (List.mem_cons_of_mem e hf)
            have hlen : q.length = q2.length + 1 := by
              have := hperm.length_eq
              simpa using this
            have hc0 : c0 ≤ e.cost := hq e hein
            have hq2 : ∀ f ∈ q2, e.cost ≤ f.cost := fun f hf => hmin f (hsub f hf)
            have hU2 : ∀ pr ∈ U, pr.2 ∈ (map pr.1).links ∧ ∃ b, best pr.2 = some b ∧
                b ≤ e.cost + distance (map pr.1) (map pr.2) := by
              intro pr hpr
              obtain ⟨hprl, b, hb, hble⟩ := hU pr hpr
              exact ⟨hprl, b, hb, le_trans hble (by linarith)⟩
            obtain ⟨U2, hsubU, hU3, hq3, hcount⟩ :=
              dijkstraRelax_fold_count map e.cost e.node e.path (map e.node).links
                q2 best U (fun v hv => hv) hq2 hU2
            have hU2edges : U2 ⊆ edgeFinset map := by
              intro pr hpr
              obtain ⟨hprl, _⟩ := hU3 pr hpr
              simp only [edgeFinset, Finset.mem_filter, Finset.mem_univ, true_and]
              exact hprl
            have hU2card : U2.card ≤ numEdges map := by
              rw [numEdges_eq_card]
              exact Finset.card_le_card hU2edges
            have hUcard : U.card ≤ U2.card := Finset.card_le_card hsubU
            exact ih _ _ e.cost U2 hq3 hU3 (by omega)

/-- The fueled Dijkstra run always completes: its fuel `numEdges map + 2`
dominates the number of loop iterations. -/
theorem dijkstra_total {n : ℕ} (map : StationMap n) (start endId : Fin n) :
    (dijkstra_get_path start endId map).isSome := by
  unfold dijkstra_get_path
  apply dijkstraLoop_total map endId (numEdges map + 2)
    [⟨0, start, []⟩] (Function.update (fun _ => none) start (some 0)) 0 ∅
  · intro e he
    simp only [List.mem_singleton] at he
    subst he
    exact le_refl 0
  · intro pr hpr
    exact absurd hpr (Finset.not_mem_empty pr)
  · simp only [List.length_singleton, Finset.card_empty, Nat.sub_zero]
    omega

/-- A route that starts in a set closed under links stays inside the set. -/
theorem route_all_mem {n : ℕ} {map : StationMap n} (T : Finset (Fin n))
    (hclosed : ∀ u ∈ T, ∀ v, isLinked map u v → v ∈ T) :
    ∀ (p : List (Fin n)) (s t : Fin n), IsRoute map s t p → s ∈ T → t ∈ T := by
  intro p s t hp hs
  by_contra ht
  obtain ⟨pre, a, b, _, haS, hbS, _, hlink, _⟩ := route_exit map T p s t hp hs ht
  exact hbS (hclosed a haS b hlink)

/-- A single neighbor push of the A* loop: skip visited neighbors, otherwise
push `(tentative_cost + heuristic, neighbor, current_path + [current])`.
Note that the popped `current_cost` is reused as accumulated cost even though
it already contains heuristic contributions (faithful to the source). -/
noncomputable def aStarPush {n : ℕ} (map : StationMap n) (endStation : Station n)
    (c : ℝ) (u : Fin n) (p : List (Fin n)) (visited : Finset (Fin n))
    (q : List (Entry n)) (v : Fin n) : List (Entry n) :=
  if v ∈ visited then q
  else q ++ [⟨c + distance (map u) (map v) + distance (map v) endStation, v, p ++ [u]⟩]

/-- The main loop of `a_star_get_path`, with explicit fuel: pop the minimal
entry; return its path if it is the end; skip it if already visited; otherwise
mark it visited and push its unvisited neighbors. -/
noncomputable def aStarLoop {n : ℕ} (map : StationMap n) (endId : Fin n) :
    ℕ → List (Entry n) → Finset (Fin n) → Option (List (Fin n))
  | 0, _, _ => none
  | fuel + 1, q, visited =>
    match heappop q with
    | none => some []
    | some (e, q2) =>
      if e.node = endId then some (e.path ++ [e.node])
      else if e.node ∈ visited then aStarLoop map endId fuel q2 visited
      else
        aStarLoop map endId fuel
          ((map e.node).links.foldl
            (aStarPush map (map endId) e.cost e.node e.path (insert e.node visited)) q2)
          (insert e.node visited)

/-- Total length of all link lists of the station map. -/
def totalDegree {n : ℕ} (map : StationMap n) : ℕ :=
  (Finset.univ : Finset (Fin n)).sum (fun u => ((map u).links).length)

/-- A* (`a_star_get_path`). The fuel `n + totalDegree map + 2` provably
dominates the number of loop iterations: every station is expanded at most
once, so at most one entry per directed edge is ever pushed. -/
noncomputable def a_star_get_path {n : ℕ} (start_id end_id : Fin n)
    (map : StationMap n) : Option (List (Fin n)) :=
  aStarLoop map end_id (n + totalDegree map + 2) [⟨0, start_id, []⟩] ∅

theorem aStarLoop_succ {n : ℕ} (map : StationMap n) (endId : Fin n) (fuel : ℕ)
    (q : List (Entry n)) (visited : Finset (Fin n)) :
    aStarLoop map endId (fuel + 1) q visited
      = match heappop q with
        | none => some []
        | some (e, q2) =>
          if e.node = endId then some (e.path ++ [e.node])
          else if e.node ∈ visited then aStarLoop map endId fuel q2 visited
          else
            aStarLoop map endId fuel
              ((map e.node).links.foldl
                (aStarPush map (map endId) e.cost e.node e.path (insert e.node visited)) q2)
              (insert e.node visited)
      := rfl

/-- Querying A* with equal start and end returns the singleton path. -/
theorem a_star_start_eq_end {n : ℕ} (s : Fin n) (map : StationMap n) :
    a_star_get_path s s map = some [s] := by
  unfold a_star_get_path
  rw [show n + totalDegree map + 2 = (n + totalDegree map + 1) + 1 from rfl, aStarLoop_succ]
  rw [show heappop [(⟨0, s, []⟩ : Entry n)]
      = some (⟨0, s, []⟩, ([] : List (Entry n))) from rfl]
  show (if s = s then some ([] ++ [s])
      else if s ∈ (∅ : Finset (Fin n)) then
        aStarLoop map s (n + totalDegree map + 1) [] ∅
      else
        aStarLoop map s (n + totalDegree map + 1)
          ((map s).links.foldl (aStarPush map (map s) 0 s [] (insert s ∅)) [])
          (insert s ∅)) = some [s]
  rw [if_pos rfl]
  rfl

/-- Specification of folding `aStarPush` over a neighbor list: the queue only
grows, new entries carry routes and point at unvisited neighbors from the
list, every unvisited neighbor of the list gets an entry, and the queue grows
by at most the list length. -/
theorem aStarPush_fold_spec {n : ℕ} (map : StationMap n) (endSt : Station n)
    (start : Fin n) (c : ℝ) (u : Fin n) (p : List (Fin n)) (visited : Finset (Fin n))
    (hroute : IsRoute map start u (p ++ [u])) :
    ∀ (l : List (Fin n)) (q : List (Entry n)),
      (∀ v ∈ l, isLinked map u v) →
      (∀ e ∈ q, e ∈ l.foldl (aStarPush map endSt c u p visited) q) ∧
      (∀ e ∈ l.foldl (aStarPush map endSt c u p visited) q, e ∈ q ∨
        (e.node ∈ l ∧ e.node ∉ visited ∧
          IsRoute map start e.node (e.path ++ [e.node]))) ∧
      (∀ v ∈ l, v ∉ visited →
        ∃ e ∈ l.foldl (aStarPush map endSt c u p visited) q, e.node = v) ∧
      (l.foldl (aStarPush map endSt c u p visited) q).length ≤ q.length + l.length := by
  intro l
  induction l with
  | nil =>
      intro q _
      refine ⟨fun e he => he, fun e he => Or.inl he, ?_, by simp⟩
      intro v hv
      exact absurd hv (List.not_mem_nil v)
  | cons v0 l ih =>
      intro q hl
      have hlink0 : isLinked map u v0 := hl v0 (List.mem_cons_self v0 l)
      have hltail : ∀ v ∈ l, isLinked map u v := fun v hv => hl v (List.mem_cons_of_mem v0 hv)
      simp only [List.foldl_cons]
      by_cases hv0 : v0 ∈ visited
      · have hstep : aStarPush map endSt c u p visited q v0 = q := by
          unfold aStarPush
          rw [if_pos hv0]
        rw [hstep]
        obtain ⟨d1, d2, d3, d4⟩ := ih q hltail
        refine ⟨d1, ?_, ?_, by simpa using Nat.le_succ_of_le d4⟩
        · intro e he
          rcases d2 e he with he2 | ⟨hm, hnv, hr⟩
          · exact Or.inl he2
          · exact Or.inr ⟨List.mem_cons_of_mem v0 hm, hnv, hr⟩
        · intro v hv hnv
          rcases List.mem_cons.mp hv with rfl | hv2
          · exact absurd hv0 hnv
          · exact d3 v hv2 hnv
      · have hstep : aStarPush map endSt c u p visited q v0
            = q ++ [⟨c + distance (map u) (map v0) + distance (map v0) endSt, v0,
                p ++ [u]⟩] := by
          unfold aStarPush
          rw [if_neg hv0]
        rw [hstep]
        obtain ⟨d1, d2, d3, d4⟩ := ih _ hltail
        have hnewroute : IsRoute map start v0 ((p ++ [u]) ++ [v0]) :=
          isRoute_concat hroute hlink0
        refine ⟨?_, ?_, ?_, ?_⟩
        · intro e he
          exact d1 e (List.mem_append.mpr (Or.inl he))
        · intro e he
          rcases d2 e he with he2 | ⟨hm, hnv, hr⟩
          · rcases List.mem_append.mp he2 with he3 | he3
            · exact Or.inl he3
            · simp only [List.mem_singleton] at he3
              subst he3
              exact Or.inr ⟨List.mem_cons_self v0 l, hv0, hnewroute⟩
          · exact Or.inr ⟨List.mem_cons_of_mem v0 hm, hnv, hr⟩
        · intro v hv hnv
          rcases List.mem_cons.mp hv with rfl | hv2
          · refine ⟨⟨c + distance (map u) (map v) + distance (map v) endSt, v,
              p ++ [u]⟩, ?_, rfl⟩
            exact d1 _ (List.mem_append.mpr (Or.inr (List.mem_singleton.mpr rfl)))
          · exact d3 v hv2 hnv
        · calc (l.foldl (aStarPush map endSt c u p visited)
                (q ++ [(⟨c + distance (map u) (map v0) + distance (map v0) endSt, v0,
                  p ++ [u]⟩ : Entry n)])).length
              ≤ (q ++ [(⟨c + distance (map u) (map v0) + distance (map v0) endSt, v0,
                  p ++ [u]⟩ : Entry n)]).length + l.length := d4
            _ = q.length + (v0 :: l).length := by
                simp only [List.length_append, List.length_cons, List.length_nil]
                omega

/-- Soundness of the A* loop: from any state satisfying the invariant (with
ghost set `P` of ever-pushed stations), if the loop returns, the result is
`[]` with the end unreachable, or a route from start to end. -/
theorem aStarLoop_sound {n : ℕ} (map : StationMap n) (start endId : Fin n) :
    ∀ (fuel : ℕ) (q : List (Entry n)) (visited : Finset (Fin n)) (P : Finset (Fin n)),
      (∀ x ∈ P, x ∉ visited → ∃ e ∈ q, e.node = x) →
      (∀ u ∈ visited, ∀ v, isLinked map u v → v ∈ visited ∨ v ∈ P) →
      (∀ e ∈ q, e.node ∈ P) →
      start ∈ P →
      endId ∉ visited →
      (∀ e ∈ q, IsRoute map start e.node (e.path ++ [e.node])) →
      ∀ r, aStarLoop map endId fuel q visited = some r →
        (r = [] ∧ ¬ Reachable map start endId) ∨ IsRoute map start endId r := by
  intro fuel
  induction fuel with
  | zero =>
      intro q visited P _ _ _ _ _ _ r hr
      exact absurd hr (by simp [aStarLoop])
  | succ fuel ih =>
      intro q visited P hA1 hA2 hA3 hA4 hA5 hA6 r hr
      rw [aStarLoop_succ] at hr
      cases hpop : heappop q with
      | none =>
          rw [hpop] at hr
          left
          refine ⟨(Option.some.inj hr).symm, ?_⟩
          have hqnil : q = [] := (heappop_eq_none q).mp hpop
          have hPvis : ∀ x ∈ P, x ∈ visited := by
            intro x hx
            by_contra hnx
            obtain ⟨e, he, _⟩ := hA1 x hx hnx
            rw [hqnil] at he
            exact absurd he (List.not_mem_nil e)
          have hclosed : ∀ u ∈ visited, ∀ v, isLinked map u v → v ∈ visited := by
            intro u hu v hl
            rcases hA2 u hu v hl with h | h
            · exact h
            · exact hPvis v h
          rintro ⟨p, hp⟩
          exact hA5 (route_all_mem visited hclosed p start endId hp (hPvis start hA4))
      | some pr =>
          obtain ⟨e, q2⟩ := pr
          rw [hpop] at hr
          have hr2 : (if e.node = endId then some (e.path ++ [e.node])
              else if e.node ∈ visited then aStarLoop map endId fuel q2 visited
              else aStarLoop map endId fuel
                ((map e.node).links.foldl
                  (aStarPush map (map endId) e.cost e.node e.path
                    (insert e.node visited)) q2)
                (insert e.node visited)) = some r := hr
          obtain ⟨hperm, hmin⟩ := heappop_spec q e q2 hpop
          have hein : e ∈ q := hperm.mem_iff.mpr (List.mem_cons_self e q2)
          have hsub : ∀ f ∈ q2, f ∈ q := fun f hf =>
            hperm.mem_iff.mpr (List.mem_cons_of_mem e hf)
          by_cases hend : e.node = endId
          · rw [if_pos hend] at hr2
            right
            have hrr : r = e.path ++ [e.node] := (Option.some.inj hr2).symm
            subst hrr
            exact hend ▸ hA6 e hein
          · rw [if_neg hend] at hr2
            by_cases hvis : e.node ∈ visited
            · rw [if_pos hvis] at hr2
              refine ih q2 visited P ?_ hA2 (fun f hf => hA3 f (hsub f hf)) hA4 hA5
                (fun f hf => hA6 f (hsub f hf)) r hr2
              intro x hx hnx
              obtain ⟨e2, he2, he2n⟩ := hA1 x hx hnx
              have he2ne : e2 ≠ e := by
                intro heq
                rw [heq] at he2n
                exact hnx (he2n ▸ hvis)
              rcases List.mem_cons.mp (hperm.mem_iff.mp he2) with heq | h2
              · exact absurd heq he2ne
              · exact ⟨e2, h2, he2n⟩
            · rw [if_neg hvis] at hr2
              have heroute : IsRoute map start e.node (e.path ++ [e.node]) := hA6 e hein
              obtain ⟨d1, d2, d3, _⟩ := aStarPush_fold_spec map (map endId) start e.cost
                e.node e.path (insert e.node visited) heroute (map e.node).links q2
                (fun v hv => hv)
              refine ih _ (insert e.node visited)
                (P ∪ ((map e.node).links).toFinset) ?_ ?_ ?_ ?_ ?_ ?_ r hr2
              · intro x hx hnx
                have hxne : x ≠ e.node := fun heq => hnx (heq ▸ Finset.mem_insert_self _ _)
                rcases Finset.mem_union.mp hx with hxP | hxL
                · have hnxv : x ∉ visited := fun h2 => hnx (Finset.mem_insert_of_mem h2)
                  obtain ⟨e2, he2, he2n⟩ := hA1 x hxP hnxv
                  have he2ne : e2 ≠ e := fun heq => hxne (by rw [← he2n, heq])
                  rcases List.mem_cons.mp (hperm.mem_iff.mp he2) with heq | h2
                  · exact absurd heq he2ne
                  · exact ⟨e2, d1 e2 h2, he2n⟩
                · exact d3 x (List.mem_toFinset.mp hxL) hnx
              · intro u hu v hl
                rcases Finset.mem_insert.mp hu with rfl | hu2
                · exact Or.inr (Finset.mem_union_right _ (List.mem_toFinset.mpr hl))
                · rcases hA2 u hu2 v hl with h | h
                  · exact Or.inl (Finset.mem_insert_of_mem h)
                  · exact Or.inr (Finset.mem_union_left _ h)
              · intro f hf
                rcases d2 f hf with hf2 | ⟨hm, _, _⟩
                · exact Finset.mem_union_left _ (hA3 f (hsub f hf2))
                · exact Finset.mem_union_right _ (List.mem_toFinset.mpr hm)
              · exact Finset.mem_union_left _ hA4
              · intro hmem
                rcases Finset.mem_insert.mp hmem with heq | h2
                · exact hend heq.symm
                · exact hA5 h2
              · intro f hf
                rcases d2 f hf with hf2 | ⟨_, _, hr3⟩
                · exact hA6 f (hsub f hf2)
                · exact hr3

/-- Soundness of the embedded A*: whenever the fueled run returns, the result
is `[]` with the end unreachable, or a route from start to end. -/
theorem a_star_get_path_sound {n : ℕ} (map : StationMap n) (start endId : Fin n) :
    ∀ r, a_star_get_path start endId map = some r →
      (r = [] ∧ ¬ Reachable map start endId) ∨ IsRoute map start endId r := by
  intro r hr
  unfold a_star_get_path at hr
  refine aStarLoop_sound map start endId _ _ ∅ {start} ?_ ?_ ?_ ?_ ?_ ?_ r hr
  · intro x hx _
    exact ⟨⟨0, start, []⟩, List.mem_singleton.mpr rfl,
      (Finset.mem_singleton.mp hx).symm⟩
  · intro u hu
    exact absurd hu (Finset.not_mem_empty u)
  · intro e he
    rw [List.mem_singleton.mp he]
    exact Finset.mem_singleton_self start
  · exact Finset.mem_singleton_self start
  · exact Finset.not_mem_empty endId
  · intro e he
    rw [List.mem_singleton.mp he]
    exact isRoute_single map start

theorem aStarPush_fold_length {n : ℕ} (map : StationMap n) (endSt : Station n)
    (c : ℝ) (u : Fin n) (p : List (Fin n)) (visited : Finset (Fin n)) :
    ∀ (l : List (Fin n)) (q : List (Entry n)),
      (l.foldl (aStarPush map endSt c u p visited) q).length ≤ q.length + l.length := by
  intro l
  induction l with
  | nil => intro q; simp
  | cons v0 l ih =>
      intro q
      simp only [List.foldl_cons]
      have hstep : (aStarPush map endSt c u p visited q v0).length ≤ q.length + 1 := by
        unfold aStarPush
        by_cases hv : v0 ∈ visited
        · rw [if_pos hv]
          omega
        · rw [if_neg hv]
          simp
      have h2 := ih (aStarPush map endSt c u p visited q v0)
      simp only [List.length_cons]
      omega

/-- Remaining work potential of the A* loop: one unit per unvisited station
plus one unit per outgoing link of an unvisited station. -/
def aStarPotential {n : ℕ} (map : StationMap n) (visited : Finset (Fin n)) : ℕ :=
  ((Finset.univ : Finset (Fin n)) \ visited).sum (fun u => 1 + ((map u).links).length)

/-- The A* loop completes whenever the fuel exceeds the queue size plus the
remaining potential. -/
theorem aStarLoop_total {n : ℕ} (map : StationMap n) (endId : Fin n) :
    ∀ (fuel : ℕ) (q : List (Entry n)) (visited : Finset (Fin n)),
      q.length + aStarPotential map visited < fuel →
      (aStarLoop map endId fuel q visited).isSome := by
  intro fuel
  induction fuel with
  | zero =>
      intro q visited hM
      exact absurd hM (by omega)
  | succ fuel ih =>
      intro q visited hM
      rw [aStarLoop_succ]
      cases hpop : heappop q with
      | none => simp
      | some pr =>
          obtain ⟨e, q2⟩ := pr
          obtain ⟨hperm, _⟩ := heappop_spec q e q2 hpop
          have hlen : q.length = q2.length + 1 := by simpa using hperm.length_eq
          by_cases hend : e.node = endId
          · simp [hend]
          · simp only [hend, if_false]
            by_cases hvis : e.node ∈ visited
            · simp only [hvis, if_true]
              exact ih q2 visited (by omega)
            · simp only [hvis, if_false]
              have hmem : e.node ∈ (Finset.univ : Finset (Fin n)) \ visited := by
                simp [hvis]
              have hsplit : aStarPotential map visited
                  = aStarPotential map (insert e.node visited)
                    + (1 + ((map e.node).links).length) := by
                unfold aStarPotential
                have hdiff : (Finset.univ : Finset (Fin n)) \ insert e.node visited
                    = ((Finset.univ : Finset (Fin n)) \ visited).erase e.node := by
                  ext x
                  simp only [Finset.mem_sdiff, Finset.mem_erase, Finset.mem_insert,
                    Finset.mem_univ, true_and]
                  tauto
                rw [hdiff, ← Finset.sum_erase_add _ _ hmem]
              have hql := aStarPush_fold_length map (map endId) e.cost e.node e.path
                (insert e.node visited) (map e.node).links q2
              exact ih _ _ (by omega)

/-- The fueled A* run always completes. -/
theorem a_star_total {n : ℕ} (map : StationMap n) (start endId : Fin n) :
    (a_star_get_path start endId map).isSome := by
  unfold a_star_get_path
  apply aStarLoop_total
  have hpot : aStarPotential map (∅ : Finset (Fin n)) = n + totalDegree map := by
    unfold aStarPotential totalDegree
    rw [Finset.sdiff_empty, Finset.sum_add_distrib]
    simp [Finset.card_univ]
  rw [hpot]
  simp only [List.length_singleton]
  omega


/-- Paths of an updated predecessor map either avoid the updated source or
reach it through old edges: an `R'`-path decomposes as an old-relation path,
or an old-relation path to the updated vertex followed by the new edge. -/
theorem reflTransGen_update_decompose {α : Type*} [DecidableEq α]
    (pred : α → Option α) (v u : α) :
    ∀ a b, Relation.ReflTransGen
        (fun x y => Function.update pred v (some u) x = some y) a b →
      Relation.ReflTransGen (fun x y => pred x = some y) a b ∨
        (Relation.ReflTransGen (fun x y => pred x = some y) a v ∧
          Relation.ReflTransGen
            (fun x y => Function.update pred v (some u) x = some y) u b) := by
  intro a b hab
  induction hab using Relation.ReflTransGen.head_induction_on with
  | refl => exact Or.inl Relation.ReflTransGen.refl
  | head hac hcb ihc =>
      rename_i a2 c2
      by_cases hav : a2 = v
      · subst hav
        have hcu : c2 = u := by
          have h2 := hac
          rw [Function.update_same] at h2
          exact (Option.some.inj h2).symm
        subst hcu
        exact Or.inr ⟨Relation.ReflTransGen.refl, hcb⟩
      · have hstep : pred a2 = some c2 := by
          have h2 := hac
          rwa [Function.update_noteq hav] at h2
        rcases ihc with h | ⟨h1, h2⟩
        · exact Or.inl (Relation.ReflTransGen.head hstep h)
        · exact Or.inr ⟨Relation.ReflTransGen.head hstep h1, h2⟩

/-- Updating `pred v := some u` keeps the predecessor relation acyclic,
provided `v` is not reachable from `u` through old predecessor edges. -/
theorem acyclic_update {α : Type*} [DecidableEq α] (pred : α → Option α) (v u : α)
    (hacyc : ∀ x, ¬ Relation.TransGen (fun a b => pred a = some b) x x)
    (hnotreach : ¬ Relation.ReflTransGen (fun a b => pred a = some b) u v) :
    ∀ x, ¬ Relation.TransGen
      (fun a b => Function.update pred v (some u) a = some b) x x := by
  intro x hx
  obtain ⟨y, hxy, hyx⟩ := (Relation.TransGen.head'_iff).mp hx
  by_cases hxv : x = v
  · subst hxv
    have hyu : y = u := by
      have h2 := hxy
      rw [Function.update_same] at h2
      exact (Option.some.inj h2).symm
    subst hyu
    rcases reflTransGen_update_decompose pred x y y x hyx with h | ⟨h1, _⟩
    · exact hnotreach h
    · exact hnotreach h1
  · have hstep : pred x = some y := by
      have h2 := hxy
      rwa [Function.update_noteq hxv] at h2
    rcases reflTransGen_update_decompose pred v u y x hyx with h | ⟨h1, h2⟩
    · exact hacyc x (Relation.TransGen.head' hstep h)
    · rcases reflTransGen_update_decompose pred v u u x h2 with h3 | ⟨h3, _⟩
      · exact hnotreach
          ((h3.trans (Relation.ReflTransGen.single hstep)).trans h1)
      · exact hnotreach h3

/-- Bellman-Ford state: the `distances` table (`float('inf')` as `⊤`) and the
`predecessors` table. -/
abbrev BFState (n : ℕ) : Type := (Fin n → WithTop ℝ) × (Fin n → Option (Fin n))

/-- A single Bellman-Ford edge relaxation:
`if distances[u] + edge_weight < distances[v]` then update the distance and
set `predecessors[v] = u`. -/
noncomputable def bfRelax {n : ℕ} (map : StationMap n) (st : BFState n)
    (u v : Fin n) : BFState n :=
  if st.1 u + ((distance (map u) (map v) : ℝ) : WithTop ℝ) < st.1 v then
    (Function.update st.1 v (st.1 u + ((distance (map u) (map v) : ℝ) : WithTop ℝ)),
      Function.update st.2 v (some u))
  else st

/-- One full relaxation round: relax every link of every station, in station
order (`for current_station_name, current_station in map.items()`). -/
noncomputable def bfRound {n : ℕ} (map : StationMap n) (st : BFState n) : BFState n :=
  (List.finRange n).foldl
    (fun st2 u => ((map u).links).foldl (fun st3 v => bfRelax map st3 u v) st2) st

/-- Iterated relaxation rounds (`for _ in range(len(map) - 1)`). -/
noncomputable def bfRounds {n : ℕ} (map : StationMap n) : ℕ → BFState n → BFState n
  | 0, st => st
  | k + 1, st => bfRounds map k (bfRound map st)

/-- The initial Bellman-Ford tables: `distances[start] = 0`, all other
distances infinite, all predecessors `None`. -/
noncomputable def bfInitial {n : ℕ} (start_id : Fin n) : BFState n :=
  (Function.update (fun _ => (⊤ : WithTop ℝ)) start_id ((0 : ℝ) : WithTop ℝ),
    fun _ => none)

/-- The Bellman-Ford tables after the `len(map) - 1` relaxation rounds. -/
noncomputable def bfFinal {n : ℕ} (map : StationMap n) (start_id : Fin n) : BFState n :=
  bfRounds map (n - 1) (bfInitial start_id)

/-- The predecessor-chain walk of the path reconstruction
(`while current is not None: path.insert(0, current); current = ...`),
embedded with fuel; `none` means the fuel ran out. -/
noncomputable def predWalk {n : ℕ} (pred : Fin n → Option (Fin n)) :
    ℕ → Fin n → List (Fin n) → Option (List (Fin n))
  | 0, _, _ => none
  | fuel + 1, current, path =>
    match pred current with
    | none => some (current :: path)
    | some p2 => predWalk pred fuel p2 (current :: path)

/-- Bellman-Ford (`bellman_ford_get_path`): relax all edges `len(map) - 1`
times, return `[]` if an edge can still be relaxed (negative-cycle check),
otherwise reconstruct the path by walking the predecessor chain backward from
the end station. The walk fuel `n + 1` provably suffices (the predecessor
relation is acyclic). -/
noncomputable def bellman_ford_get_path {n : ℕ} (start_id end_id : Fin n)
    (map : StationMap n) : Option (List (Fin n)) :=
  if ∃ u, ∃ v ∈ (map u).links,
      (bfFinal map start_id).1 u + ((distance (map u) (map v) : ℝ) : WithTop ℝ)
        < (bfFinal map start_id).1 v then
    some []
  else
    predWalk (bfFinal map start_id).2 (n + 1) end_id []

theorem coe_distance_nonneg {n : ℕ} (s1 s2 : Station n) :
    (0 : WithTop ℝ) ≤ ((distance s1 s2 : ℝ) : WithTop ℝ) := by
  rw [← WithTop.coe_zero, WithTop.coe_le_coe]
  exact distance_nonneg s1 s2

/-- Invariant of the Bellman-Ford tables. -/
structure BFInv {n : ℕ} (map : StationMap n) (start : Fin n)
    (d : Fin n → WithTop ℝ) (pred : Fin n → Option (Fin n)) : Prop where
  start_zero : d start = ((0 : ℝ) : WithTop ℝ)
  nonneg : ∀ v, (0 : WithTop ℝ) ≤ d v
  realizable : ∀ v (r : ℝ), d v = (r : WithTop ℝ) →
    ∃ p, IsRoute map start v p ∧ calculate_path_length p map = r
  pred_none_start : pred start = none
  pred_some : ∀ v u, pred v = some u → isLinked map u v ∧ d v ≠ ⊤ ∧
    d u + ((distance (map u) (map v) : ℝ) : WithTop ℝ) ≤ d v
  pred_of_finite : ∀ v, v ≠ start → d v ≠ ⊤ → pred v ≠ none
  acyclic : ∀ x, ¬ Relation.TransGen (fun a b => pred a = some b) x x

/-- Distances do not increase along predecessor chains. -/
theorem pred_chain_le {n : ℕ} {map : StationMap n}
    {d : Fin n → WithTop ℝ} {pred : Fin n → Option (Fin n)}
    (hps : ∀ v u, pred v = some u → isLinked map u v ∧ d v ≠ ⊤ ∧
      d u + ((distance (map u) (map v) : ℝ) : WithTop ℝ) ≤ d v) :
    ∀ a b, Relation.ReflTransGen (fun x y => pred x = some y) a b → d b ≤ d a := by
  intro a b hab
  induction hab using Relation.ReflTransGen.head_induction_on with
  | refl => exact le_refl _
  | head hac hcb ihc =>
      rename_i a2 c2
      obtain ⟨_, _, hle⟩ := hps a2 c2 hac
      have h1 : d c2 ≤ d a2 :=
        le_trans (le_add_of_nonneg_right (coe_distance_nonneg _ _)) hle
      exact le_trans ihc h1

theorem bfRelax_cases {n : ℕ} (map : StationMap n) (st : BFState n) (u v : Fin n) :
    (bfRelax map st u v = st ∧
      st.1 v ≤ st.1 u + ((distance (map u) (map v) : ℝ) : WithTop ℝ)) ∨
    (st.1 u + ((distance (map u) (map v) : ℝ) : WithTop ℝ) < st.1 v ∧
      bfRelax map st u v
        = (Function.update st.1 v
            (st.1 u + ((distance (map u) (map v) : ℝ) : WithTop ℝ)),
          Function.update st.2 v (some u))) := by
  unfold bfRelax
  by_cases hc : st.1 u + ((distance (map u) (map v) : ℝ) : WithTop ℝ) < st.1 v
  · rw [if_pos hc]
    exact Or.inr ⟨hc, rfl⟩
  · rw [if_neg hc]
    exact Or.inl ⟨rfl, not_lt.mp hc⟩

/-- One edge relaxation preserves the Bellman-Ford invariant, never increases
a distance, and leaves the target's distance at most the source distance plus
the edge weight. -/
theorem bfRelax_preserves {n : ℕ} (map : StationMap n) (start : Fin n)
    (st : BFState n) (u v : Fin n) (hlink : isLinked map u v)
    (inv : BFInv map start st.1 st.2) :
    BFInv map start (bfRelax map st u v).1 (bfRelax map st u v).2 ∧
    (∀ x, (bfRelax map st u v).1 x ≤ st.1 x) ∧
    ((bfRelax map st u v).1 v
      ≤ st.1 u + ((distance (map u) (map v) : ℝ) : WithTop ℝ)) := by
  rcases bfRelax_cases map st u v with ⟨heq, hle⟩ | ⟨hlt, heq⟩
  · rw [heq]
    exact ⟨inv, fun x => le_refl _, hle⟩
  · have hw := coe_distance_nonneg (map u) (map v)
    have hune : u ≠ v := by
      intro huv
      rw [huv] at hlt
      exact absurd hlt (not_lt.mpr (le_add_of_nonneg_right (coe_distance_nonneg _ _)))
    have hdune : st.1 u ≠ ⊤ := by
      intro htop
      rw [htop, top_add] at hlt
      exact absurd hlt (not_top_lt)
    obtain ⟨ru, hru⟩ := WithTop.ne_top_iff_exists.mp hdune
    have hvns : v ≠ start := by
      intro hvs
      rw [hvs, inv.start_zero] at hlt
      have h0 : (0 : WithTop ℝ)
          ≤ st.1 u + ((distance (map u) (map start) : ℝ) : WithTop ℝ) :=
        add_nonneg (inv.nonneg u) (coe_distance_nonneg _ _)
      have h1 := lt_of_le_of_lt h0 hlt
      simp at h1
    have hnotreach : ¬ Relation.ReflTransGen (fun a b => st.2 a = some b) u v := by
      intro hreach
      have hvu : st.1 v ≤ st.1 u := pred_chain_le inv.pred_some u v hreach
      have huv : st.1 u < st.1 v :=
        lt_of_le_of_lt (le_add_of_nonneg_right hw) hlt
      exact absurd (lt_of_lt_of_le huv hvu) (lt_irrefl _)
    have hru0 : (0 : ℝ) ≤ ru := by
      have h2 := inv.nonneg u
      rw [← hru, ← WithTop.coe_zero, WithTop.coe_le_coe] at h2
      exact h2
    have hnewval : st.1 u + ((distance (map u) (map v) : ℝ) : WithTop ℝ)
        = ((ru + distance (map u) (map v) : ℝ) : WithTop ℝ) := by
      rw [← hru, ← WithTop.coe_add]
    have hinv2 : BFInv map start
        (Function.update st.1 v
          (st.1 u + ((distance (map u) (map v) : ℝ) : WithTop ℝ)))
        (Function.update st.2 v (some u)) := by
      refine ⟨?_, ?_, ?_, ?_, ?_, ?_, ?_⟩
      · rw [Function.update_noteq (Ne.symm hvns)]
        exact inv.start_zero
      · intro x
        by_cases hx : x = v
        · subst hx
          rw [Function.update_same, hnewval, ← WithTop.coe_zero, WithTop.coe_le_coe]
          have := distance_nonneg (map u) (map x)
          linarith
        · rw [Function.update_noteq hx]
          exact inv.nonneg x
      · intro x r hx
        by_cases hxv : x = v
        · subst hxv
          rw [Function.update_same, hnewval] at hx
          have hr : ru + distance (map u) (map x) = r := WithTop.coe_inj.mp hx
          obtain ⟨p, hp, hplen⟩ := inv.realizable u ru hru.symm
          refine ⟨p ++ [x], isRoute_concat hp hlink, ?_⟩
          rw [isRoute_length_concat hp, hplen]
          exact hr
        · rw [Function.update_noteq hxv] at hx
          exact inv.realizable x r hx
      · rw [Function.update_noteq (Ne.symm hvns)]
        exact inv.pred_none_start
      · intro x u2 hx
        by_cases hxv : x = v
        · subst hxv
          rw [Function.update_same] at hx
          have hu2 : u2 = u := (Option.some.inj hx).symm
          subst hu2
          refine ⟨hlink, ?_, ?_⟩
          · rw [Function.update_same, hnewval]
            exact WithTop.coe_ne_top
          · rw [Function.update_same, Function.update_noteq hune]
        · rw [Function.update_noteq hxv] at hx
          obtain ⟨hl2, hne2, hle2⟩ := inv.pred_some x u2 hx
          refine ⟨hl2, ?_, ?_⟩
          · rw [Function.update_noteq hxv]
            exact hne2
          · rw [Function.update_noteq hxv]
            by_cases hu2v : u2 = v
            · subst hu2v
              refine le_trans (add_le_add_right ?_ _) hle2
              rw [Function.update_same]
              exact le_of_lt hlt
            · rw [Function.update_noteq hu2v]
              exact hle2
      · intro x hxs hxne
        by_cases hxv : x = v
        · subst hxv
          rw [Function.update_same]
          simp
        · rw [Function.update_noteq hxv] at hxne
          rw [Function.update_noteq hxv]
          exact inv.pred_of_finite x hxs hxne
      · exact acyclic_update st.2 v u inv.acyclic hnotreach
    have hmono : ∀ x, Function.update st.1 v
        (st.1 u + ((distance (map u) (map v) : ℝ) : WithTop ℝ)) x ≤ st.1 x := by
      intro x
      by_cases hx : x = v
      · subst hx
        rw [Function.update_same]
        exact le_of_lt hlt
      · rw [Function.update_noteq hx]
    have hvle : Function.update st.1 v
        (st.1 u + ((distance (map u) (map v) : ℝ) : WithTop ℝ)) v
        ≤ st.1 u + ((distance (map u) (map v) : ℝ) : WithTop ℝ) := by
      rw [Function.update_same]
    rw [heq]
    exact ⟨hinv2, hmono, hvle⟩

theorem bfInner_fold {n : ℕ} (map : StationMap n) (start : Fin n) (u : Fin n) :
    ∀ (l : List (Fin n)) (st : BFState n),
      (∀ v ∈ l, isLinked map u v) →
      BFInv map start st.1 st.2 →
      BFInv map start (l.foldl (fun st3 v => bfRelax map st3 u v) st).1
        (l.foldl (fun st3 v => bfRelax map st3 u v) st).2 ∧
      (∀ x, (l.foldl (fun st3 v => bfRelax map st3 u v) st).1 x ≤ st.1 x) ∧
      (∀ v ∈ l, (l.foldl (fun st3 v => bfRelax map st3 u v) st).1 v
        ≤ st.1 u + ((distance (map u) (map v) : ℝ) : WithTop ℝ)) := by
  intro l
  induction l with
  | nil =>
      intro st _ inv
      refine ⟨inv, fun x => le_refl _, ?_⟩
      intro v hv
      exact absurd hv (List.not_mem_nil v)
  | cons v0 l ih =>
      intro st hl inv
      have hlink0 : isLinked map u v0 := hl v0 (List.mem_cons_self v0 l)
      have hltail : ∀ v ∈ l, isLinked map u v := fun v hv => hl v (List.mem_cons_of_mem v0 hv)
      obtain ⟨inv1, mono1, hv0⟩ := bfRelax_preserves map start st u v0 hlink0 inv
      obtain ⟨inv2, mono2, cov2⟩ := ih (bfRelax map st u v0) hltail inv1
      simp only [List.foldl_cons]
      refine ⟨inv2, ?_, ?_⟩
      · intro x
        exact le_trans (mono2 x) (mono1 x)
      · intro v hv
        rcases List.mem_cons.mp hv with rfl | hv2
        · exact le_trans (mono2 v) hv0
        · exact le_trans (cov2 v hv2) (add_le_add_right (mono1 u) _)

theorem bfOuter_fold {n : ℕ} (map : StationMap n) (start : Fin n) :
    ∀ (l : List (Fin n)) (st : BFState n),
      BFInv map start st.1 st.2 →
      BFInv map start
        (l.foldl (fun st2 u => ((map u).links).foldl
          (fun st3 v => bfRelax map st3 u v) st2) st).1
        (l.foldl (fun st2 u => ((map u).links).foldl
          (fun st3 v => bfRelax map st3 u v) st2) st).2 ∧
      (∀ x, (l.foldl (fun st2 u => ((map u).links).foldl
          (fun st3 v => bfRelax map st3 u v) st2) st).1 x ≤ st.1 x) ∧
      (∀ u ∈ l, ∀ v, isLinked map u v →
        (l.foldl (fun st2 u => ((map u).links).foldl
          (fun st3 v => bfRelax map st3 u v) st2) st).1 v
          ≤ st.1 u + ((distance (map u) (map v) : ℝ) : WithTop ℝ)) := by
  intro l
  induction l with
  | nil =>
      intro st inv
      refine ⟨inv, fun x => le_refl _, ?_⟩
      intro u hu
      exact absurd hu (List.not_mem_nil u)
  | cons u0 l ih =>
      intro st inv
      obtain ⟨inv1, mono1, cov1⟩ :=
        bfInner_fold map start u0 ((map u0).links) st (fun v hv => hv) inv
      obtain ⟨inv2, mono2, cov2⟩ := ih _ inv1
      simp only [List.foldl_cons]
      refine ⟨inv2, ?_, ?_⟩
      · intro x
        exact le_trans (mono2 x) (mono1 x)
      · intro u hu v hlink
        rcases List.mem_cons.mp hu with rfl | hu2
        · exact le_trans (mono2 v) (cov1 v hlink)
        · exact le_trans (cov2 u hu2 v hlink) (add_le_add_right (mono1 u) _)

theorem bfRound_spec {n : ℕ} (map : StationMap n) (start : Fin n)
    (st : BFState n) (inv : BFInv map start st.1 st.2) :
    BFInv map start (bfRound map st).1 (bfRound map st).2 ∧
    (∀ x, (bfRound map st).1 x ≤ st.1 x) ∧
    (∀ u v, isLinked map u v →
      (bfRound map st).1 v ≤ st.1 u + ((distance (map u) (map v) : ℝ) : WithTop ℝ)) := by
  obtain ⟨inv2, mono2, cov2⟩ := bfOuter_fold map start (List.finRange n) st inv
  exact ⟨inv2, mono2, fun u v hlink => cov2 u (List.mem_finRange u) v hlink⟩

theorem bfRounds_spec {n : ℕ} (map : StationMap n) (start : Fin n) :
    ∀ (k : ℕ) (st : BFState n), BFInv map start st.1 st.2 →
      BFInv map start (bfRounds map k st).1 (bfRounds map k st).2 ∧
      (∀ x, (bfRounds map k st).1 x ≤ st.1 x) := by
  intro k
  induction k with
  | zero => intro st inv; exact ⟨inv, fun x => le_refl _⟩
  | succ k ih =>
      intro st inv
      obtain ⟨inv1, mono1, _⟩ := bfRound_spec map start st inv
      obtain ⟨inv2, mono2⟩ := ih (bfRound map st) inv1
      exact ⟨inv2, fun x => le_trans (mono2 x) (mono1 x)⟩

theorem bfRounds_succ_comm {n : ℕ} (map : StationMap n) :
    ∀ (k : ℕ) (st : BFState n),
      bfRounds map (k + 1) st = bfRound map (bfRounds map k st) := by
  intro k
  induction k with
  | zero => intro st; rfl
  | succ k ih =>
      intro st
      show bfRounds map (k + 1) (bfRound map st) = _
      rw [ih (bfRound map st)]
      rfl

theorem head?_append_left {α : Type*} (l₁ l₂ : List α) (h : l₁ ≠ []) :
    (l₁ ++ l₂).head? = l₁.head? := by
  cases l₁ with
  | nil => exact absurd rfl h
  | cons a t => rfl

/-- A route of length at least two decomposes as a route to the predecessor
of its end plus the closing edge. -/
theorem route_init {n : ℕ} {map : StationMap n} {s t : Fin n} {p : List (Fin n)}
    (hp : IsRoute map s t p) (hlen : 2 ≤ p.length) :
    ∃ (q : List (Fin n)) (u : Fin n), p = q ++ [t] ∧ IsRoute map s u q ∧
      isLinked map u t ∧
      calculate_path_length p map
        = calculate_path_length q map + distance (map u) (map t) := by
  rcases List.eq_nil_or_concat p with rfl | ⟨q, b, rfl⟩
  · simp at hlen
  · simp only [List.concat_eq_append] at hp hlen ⊢
    have hbt : b = t := by
      have h2 := hp.2.2.1
      rw [List.getLast?_concat] at h2
      exact Option.some.inj h2
    subst hbt
    have hqne : q ≠ [] := by
      intro hq
      subst hq
      simp at hlen
    have hq : ∃ u, q.getLast? = some u := by
      cases hql : q.getLast? with
      | none => exact absurd (List.getLast?_eq_none_iff.mp hql) hqne
      | some u => exact ⟨u, rfl⟩
    obtain ⟨u, hu⟩ := hq
    have hchain := hp.2.2.2
    rw [List.chain'_append] at hchain
    obtain ⟨hc1, _, hc3⟩ := hchain
    have hlinked : isLinked map u b := hc3 u hu b rfl
    refine ⟨q, u, rfl, ⟨hqne, ?_, hu, hc1⟩, hlinked, ?_⟩
    · rw [← hp.2.1, head?_append_left q [b] hqne]
    · exact calculate_path_length_concat map q u b hu

/-- After `k` rounds the recorded distance of a station is at most the length
of any route to it with at most `k + 1` stations. -/
theorem bfRounds_le_routes {n : ℕ} (map : StationMap n) (start : Fin n) :
    ∀ (k : ℕ) (st : BFState n), BFInv map start st.1 st.2 →
      ∀ (v : Fin n) (p : List (Fin n)), IsRoute map start v p → p.length ≤ k + 1 →
        (bfRounds map k st).1 v ≤ ((calculate_path_length p map : ℝ) : WithTop ℝ) := by
  intro k
  induction k with
  | zero =>
      intro st inv v p hp hplen
      cases p with
      | nil => exact absurd rfl hp.1
      | cons a t =>
          have ht : t = [] := by
            cases t with
            | nil => rfl
            | cons b t2 => simp at hplen
          subst ht
          have has : a = start := by
            have h2 := hp.2.1
            simp only [List.head?_cons, Option.some.injEq] at h2
            exact h2
          have hav : a = v := by
            have h2 := hp.2.2.1
            simp only [List.getLast?_singleton, Option.some.injEq] at h2
            exact h2
          rw [calculate_path_length_single]
          show st.1 v ≤ _
          rw [← hav, has, inv.start_zero]
  | succ k ih =>
      intro st inv v p hp hplen
      rw [bfRounds_succ_comm]
      obtain ⟨invk, _⟩ := bfRounds_spec map start k st inv
      obtain ⟨invk2, monok2, covk2⟩ := bfRound_spec map start (bfRounds map k st) invk
      by_cases hl2 : 2 ≤ p.length
      · obtain ⟨q, u, rfl, hq, hlinked, hlen2⟩ := route_init hp hl2
        have hqlen : q.length ≤ k + 1 := by
          rw [List.length_append, List.length_singleton] at hplen
          omega
        have h1 := ih st inv u q hq hqlen
        have h2 := covk2 u v hlinked
        have h3 : (bfRounds map k st).1 u
              + ((distance (map u) (map v) : ℝ) : WithTop ℝ)
            ≤ ((calculate_path_length q map : ℝ) : WithTop ℝ)
              + ((distance (map u) (map v) : ℝ) : WithTop ℝ) :=
          add_le_add_right h1 _
        rw [hlen2]
        refine le_trans h2 (le_trans h3 ?_)
        rw [← WithTop.coe_add]
      · cases p with
        | nil => exact absurd rfl hp.1
        | cons a t =>
            have ht : t = [] := by
              cases t with
              | nil => rfl
              | cons b t2 => simp at hl2
            subst ht
            have has : a = start := by
              have h2 := hp.2.1
              simp only [List.head?_cons, Option.some.injEq] at h2
              exact h2
            have hav : a = v := by
              have h2 := hp.2.2.1
              simp only [List.getLast?_singleton, Option.some.injEq] at h2
              exact h2
            rw [calculate_path_length_single]
            rw [← hav, has, invk2.start_zero]

theorem bfInitial_inv {n : ℕ} (map : StationMap n) (start : Fin n) :
    BFInv map start (bfInitial start).1 (bfInitial start).2 := by
  refine ⟨?_, ?_, ?_, ?_, ?_, ?_, ?_⟩
  · show Function.update (fun _ => (⊤ : WithTop ℝ)) start ((0 : ℝ) : WithTop ℝ) start
      = ((0 : ℝ) : WithTop ℝ)
    exact Function.update_same _ _ _
  · intro v
    show (0 : WithTop ℝ) ≤ Function.update (fun _ => (⊤ : WithTop ℝ)) start
      ((0 : ℝ) : WithTop ℝ) v
    by_cases hv : v = start
    · subst hv
      rw [Function.update_same]
      simp
    · rw [Function.update_noteq hv]
      exact le_top
  · intro v r hv
    show ∃ p, IsRoute map start v p ∧ calculate_path_length p map = r
    by_cases hvs : v = start
    · subst hvs
      have h2 : ((0 : ℝ) : WithTop ℝ) = (r : WithTop ℝ) := by
        rw [← hv]
        show _ = Function.update (fun _ => (⊤ : WithTop ℝ)) v ((0 : ℝ) : WithTop ℝ) v
        rw [Function.update_same]
      have hr : (0 : ℝ) = r := WithTop.coe_inj.mp h2
      exact ⟨[v], isRoute_single map v, by rw [calculate_path_length_single, hr]⟩
    · have h2 : (bfInitial start).1 v = ⊤ := by
        show Function.update (fun _ => (⊤ : WithTop ℝ)) start ((0 : ℝ) : WithTop ℝ) v = ⊤
        rw [Function.update_noteq hvs]
      rw [h2] at hv
      exact absurd hv.symm WithTop.coe_ne_top
  · rfl
  · intro v u hv
    exfalso
    have h2 : (none : Option (Fin n)) = some u := hv
    cases h2
  · intro v hvs hvne
    exfalso
    apply hvne
    show Function.update (fun _ => (⊤ : WithTop ℝ)) start ((0 : ℝ) : WithTop ℝ) v = ⊤
    rw [Function.update_noteq hvs]
  · intro x hx
    obtain ⟨y, hxy, _⟩ := (Relation.TransGen.head'_iff).mp hx
    have h2 : (none : Option (Fin n)) = some y := hxy
    cases h2

/-- The Bellman-Ford tables after all rounds: the invariant holds, every
recorded distance is a lower bound of every route length, and no edge can
still be relaxed. -/
theorem bf_final_spec {n : ℕ} (map : StationMap n) (start : Fin n) :
    BFInv map start (bfFinal map start).1 (bfFinal map start).2 ∧
    (∀ (v : Fin n) (p : List (Fin n)), IsRoute map start v p →
      (bfFinal map start).1 v ≤ ((calculate_path_length p map : ℝ) : WithTop ℝ)) ∧
    (∀ u v, isLinked map u v →
      ¬ ((bfFinal map start).1 u + ((distance (map u) (map v) : ℝ) : WithTop ℝ)
        < (bfFinal map start).1 v)) := by
  have hinv0 := bfInitial_inv map start
  have hinv := (bfRounds_spec map start (n - 1) (bfInitial start) hinv0).1
  have hopt : ∀ (v : Fin n) (p : List (Fin n)), IsRoute map start v p →
      (bfFinal map start).1 v ≤ ((calculate_path_length p map : ℝ) : WithTop ℝ) := by
    intro v p hp
    obtain ⟨q, hq, hnd, hqle⟩ := isRoute_shorten map start v p.length p (le_refl _) hp
    have hql : q.length ≤ n := by
      have h2 := hnd.length_le_card
      simpa using h2
    have hn1 : 1 ≤ n := Nat.succ_le_of_lt v.pos
    have hql2 : q.length ≤ (n - 1) + 1 := by omega
    have h1 := bfRounds_le_routes map start (n - 1) (bfInitial start) hinv0 v q hq hql2
    refine le_trans h1 ?_
    rw [WithTop.coe_le_coe]
    exact hqle
  refine ⟨hinv, hopt, ?_⟩
  intro u v hlink hcon
  by_cases htop : (bfFinal map start).1 u = ⊤
  · rw [htop, top_add] at hcon
    exact not_top_lt hcon
  · obtain ⟨ru, hru⟩ := WithTop.ne_top_iff_exists.mp htop
    obtain ⟨p, hp, hplen⟩ := hinv.realizable u ru hru.symm
    have hplus := hopt v (p ++ [v]) (isRoute_concat hp hlink)
    rw [isRoute_length_concat hp, hplen] at hplus
    rw [← hru, ← WithTop.coe_add] at hcon
    exact absurd (lt_of_lt_of_le hcon hplus) (lt_irrefl _)

theorem predWalk_succ {n : ℕ} (pred : Fin n → Option (Fin n)) (fuel : ℕ)
    (current : Fin n) (path : List (Fin n)) :
    predWalk pred (fuel + 1) current path
      = match pred current with
        | none => some (current :: path)
        | some p2 => predWalk pred fuel p2 (current :: path) := rfl

/-- The predecessor walk completes when the predecessor relation is acyclic:
the visited stations are pairwise distinct, so at most `n` steps occur. -/
theorem predWalk_total {n : ℕ} (pred : Fin n → Option (Fin n))
    (hacyc : ∀ x, ¬ Relation.TransGen (fun a b => pred a = some b) x x) :
    ∀ (fuel : ℕ) (cur : Fin n) (acc : List (Fin n)) (seen : Finset (Fin n)),
      cur ∉ seen →
      (∀ x ∈ seen, Relation.TransGen (fun a b => pred a = some b) x cur) →
      n + 1 - seen.card ≤ fuel →
      ∃ res, predWalk pred fuel cur acc = some res := by
  intro fuel
  induction fuel with
  | zero =>
      intro cur acc seen hcur hseen hfuel
      exfalso
      have hcard : seen.card ≤ n := by
        have h2 := Finset.card_le_univ seen
        simpa using h2
      omega
  | succ fuel ih =>
      intro cur acc seen hcur hseen hfuel
      rw [predWalk_succ]
      cases hp : pred cur with
      | none => exact ⟨cur :: acc, rfl⟩
      | some p2 =>
          have hstep : Relation.TransGen (fun a b => pred a = some b) cur p2 :=
            Relation.TransGen.single hp
          have hnotin : p2 ∉ insert cur seen := by
            intro hmem
            rcases Finset.mem_insert.mp hmem with heq | hm
            · exact hacyc cur (heq ▸ hstep)
            · exact hacyc p2 (Relation.TransGen.tail (hseen p2 hm) hp)
          have hinv2 : ∀ x ∈ insert cur seen,
              Relation.TransGen (fun a b => pred a = some b) x p2 := by
            intro x hx
            rcases Finset.mem_insert.mp hx with heq | hm
            · rw [heq]
              exact hstep
            · exact Relation.TransGen.tail (hseen x hm) hp
          have hcard2 : (insert cur seen).card = seen.card + 1 :=
            Finset.card_insert_of_not_mem hcur
          have hcard3 : seen.card ≤ n := by
            have h2 := Finset.card_le_univ seen
            simpa using h2
          exact ih p2 (cur :: acc) (insert cur seen) hnotin hinv2 (by omega)

/-- Structure of a successful predecessor walk: the result extends the
accumulator with a non-empty predecessor chain ending at the walk's starting
station and beginning at a station with no predecessor. -/
theorem predWalk_sound {n : ℕ} (pred : Fin n → Option (Fin n)) :
    ∀ (fuel : ℕ) (cur : Fin n) (acc res : List (Fin n)),
      predWalk pred fuel cur acc = some res →
      ∃ c : List (Fin n), res = c ++ acc ∧ c ≠ [] ∧ c.getLast? = some cur ∧
        List.Chain' (fun a b => pred b = some a) c ∧
        ∃ tnode, c.head? = some tnode ∧ pred tnode = none := by
  intro fuel
  induction fuel with
  | zero =>
      intro cur acc res hr
      exact absurd hr (by simp [predWalk])
  | succ fuel ih =>
      intro cur acc res hr
      rw [predWalk_succ] at hr
      cases hp : pred cur with
      | none =>
          rw [hp] at hr
          have hr2 : some (cur :: acc) = some res := hr
          have hres : res = cur :: acc := (Option.some.inj hr2).symm
          refine ⟨[cur], by rw [hres]; rfl, by simp, rfl, by simp, cur, rfl, hp⟩
      | some p2 =>
          rw [hp] at hr
          have hr2 : predWalk pred fuel p2 (cur :: acc) = some res := hr
          obtain ⟨c, hres, hcne, hclast, hcchain, t2, hthead, htnone⟩ :=
            ih p2 (cur :: acc) res hr2
          refine ⟨c ++ [cur], ?_, by simp, ?_, ?_, ?_⟩
          · rw [hres]
            simp
          · rw [List.getLast?_concat]
          · rw [List.chain'_append]
            refine ⟨hcchain, by simp, ?_⟩
            intro x hx y hy
            simp only [List.head?_cons, Option.mem_def, Option.some.injEq] at hy
            rw [hclast] at hx
            simp only [Option.mem_def, Option.some.injEq] at hx
            subst hx
            subst hy
            exact hp
          · refine ⟨t2, ?_, htnone⟩
            rw [head?_append_left c [cur] hcne]
            exact hthead

/-- Telescoping of distances along a predecessor chain when every predecessor
edge is tight. -/
theorem predChain_len {n : ℕ} {map : StationMap n}
    {d : Fin n → WithTop ℝ} {pred : Fin n → Option (Fin n)}
    (hedge : ∀ a b, pred b = some a →
      d b = d a + ((distance (map a) (map b) : ℝ) : WithTop ℝ)) :
    ∀ (c : List (Fin n)) (h z : Fin n), List.Chain' (fun a b => pred b = some a) c →
      c.head? = some h → c.getLast? = some z →
      d z = d h + ((calculate_path_length c map : ℝ) : WithTop ℝ) := by
  intro c
  induction c with
  | nil => intro h z _ hh _; simp at hh
  | cons a t ih =>
      intro h z hchain hh hz
      have hha : h = a := by
        simp only [List.head?_cons, Option.some.injEq] at hh
        exact hh.symm
      subst hha
      match t with
      | [] =>
          have hza : z = h := by
            simp only [List.getLast?_singleton, Option.some.injEq] at hz
            exact hz.symm
          subst hza
          rw [calculate_path_length_single, WithTop.coe_zero, add_zero]
      | b :: t2 =>
          rw [List.chain'_cons] at hchain
          have hstep := hedge h b hchain.1
          have hz2 : (b :: t2).getLast? = some z := by
            rw [← hz, List.getLast?_cons_cons]
          have hih := ih b z hchain.2 rfl hz2
          rw [hih, hstep, calculate_path_length_cons_cons]
          rw [add_assoc, ← WithTop.coe_add]

/-- Full behavior of the embedded Bellman-Ford: the run returns a path ending
at the end station; when the end is reachable the path is an optimal route
from start to end; when it is unreachable the path is exactly `[end]`. -/
theorem bellman_ford_spec {n : ℕ} (map : StationMap n) (start endId : Fin n) :
    ∃ res, bellman_ford_get_path start endId map = some res ∧
      res.getLast? = some endId ∧
      (Reachable map start endId →
        IsRoute map start endId res ∧
        ∀ p, IsRoute map start endId p →
          calculate_path_length res map ≤ calculate_path_length p map) ∧
      (¬ Reachable map start endId → res = [endId]) := by
  obtain ⟨hinv, hopt, hnorelax⟩ := bf_final_spec map start
  have hcheck : ¬ ∃ u, ∃ v ∈ (map u).links,
      (bfFinal map start).1 u + ((distance (map u) (map v) : ℝ) : WithTop ℝ)
        < (bfFinal map start).1 v := by
    rintro ⟨u, v, hv, hlt⟩
    exact hnorelax u v hv hlt
  have hbf : bellman_ford_get_path start endId map
      = predWalk (bfFinal map start).2 (n + 1) endId [] := by
    unfold bellman_ford_get_path
    rw [if_neg hcheck]
  obtain ⟨res, hres⟩ := predWalk_total (bfFinal map start).2 hinv.acyclic (n + 1)
    endId [] ∅ (Finset.not_mem_empty _)
    (fun x hx => absurd hx (Finset.not_mem_empty x)) (by simp)
  obtain ⟨c, hceq, hcne, hclast, hcchain, t2, hthead, htnone⟩ :=
    predWalk_sound _ (n + 1) endId [] res hres
  rw [List.append_nil] at hceq
  subst hceq
  refine ⟨res, by rw [hbf]; exact hres, hclast, ?_, ?_⟩
  · intro hreach
    obtain ⟨p0, hp0⟩ := hreach
    have hdend : (bfFinal map start).1 endId ≠ ⊤ := by
      intro htop
      have h2 := hopt endId p0 hp0
      rw [htop] at h2
      exact absurd h2 (by simp)
    have hedge_eq : ∀ a b, (bfFinal map start).2 b = some a →
        (bfFinal map start).1 b
          = (bfFinal map start).1 a + ((distance (map a) (map b) : ℝ) : WithTop ℝ) := by
      intro a b hab
      obtain ⟨hl, _, hge⟩ := hinv.pred_some b a hab
      exact le_antisymm (not_lt.mp (hnorelax a b hl)) hge
    have hlen := predChain_len hedge_eq res t2 endId hcchain hthead hclast
    have hdt2 : (bfFinal map start).1 t2 ≠ ⊤ := by
      intro htop
      rw [htop, top_add] at hlen
      exact hdend hlen
    have ht2start : t2 = start := by
      by_contra hne
      exact (hinv.pred_of_finite t2 hne hdt2) htnone
    have hroutechain : List.Chain' (isLinked map) res :=
      List.Chain'.imp (fun a b hab => (hinv.pred_some b a hab).1) hcchain
    have hroute : IsRoute map start endId res := by
      refine ⟨hcne, ?_, hclast, hroutechain⟩
      rw [hthead, ht2start]
    rw [ht2start, hinv.start_zero] at hlen
    have hlen2 : (bfFinal map start).1 endId
        = ((calculate_path_length res map : ℝ) : WithTop ℝ) := by
      rw [hlen, ← WithTop.coe_add, zero_add]
    refine ⟨hroute, ?_⟩
    intro p hp
    have h3 := hopt endId p hp
    rw [hlen2, WithTop.coe_le_coe] at h3
    exact h3
  · intro hunreach
    have hdend : (bfFinal map start).1 endId = ⊤ := by
      by_contra hne
      obtain ⟨r, hr⟩ := WithTop.ne_top_iff_exists.mp hne
      obtain ⟨p, hp, _⟩ := hinv.realizable endId r hr.symm
      exact hunreach ⟨p, hp⟩
    have hpend : (bfFinal map start).2 endId = none := by
      cases hpe : (bfFinal map start).2 endId with
      | none => rfl
      | some u =>
          obtain ⟨_, hne, _⟩ := hinv.pred_some endId u hpe
          exact absurd hdend hne
    have hwalk : predWalk (bfFinal map start).2 (n + 1) endId [] = some [endId] := by
      rw [predWalk_succ, hpend]
    rw [hwalk] at hres
    exact (Option.some.inj hres).symm

/-- Querying Bellman-Ford with equal start and end returns the singleton
path. -/
theorem bellman_start_eq_end {n : ℕ} (s : Fin n) (map : StationMap n) :
    bellman_ford_get_path s s map = some [s] := by
  obtain ⟨hinv, _, hnorelax⟩ := bf_final_spec map s
  have hcheck : ¬ ∃ u, ∃ v ∈ (map u).links,
      (bfFinal map s).1 u + ((distance (map u) (map v) : ℝ) : WithTop ℝ)
        < (bfFinal map s).1 v := by
    rintro ⟨u, v, hv, hlt⟩
    exact hnorelax u v hv hlt
  unfold bellman_ford_get_path
  rw [if_neg hcheck, predWalk_succ, hinv.pred_none_start]

theorem dijkstraLoop_step {n : ℕ} (map : StationMap n) (endId : Fin n) (fuel : ℕ)
    (q : List (Entry n)) (best : Fin n → Option ℝ) (e : Entry n) (q2 : List (Entry n))
    (hpop : heappop q = some (e, q2)) (hne : e.node ≠ endId) :
    dijkstraLoop map endId (fuel + 1) q best
      = dijkstraLoop map endId fuel
          ((map e.node).links.foldl (dijkstraRelax map e.cost e.node e.path) (q2, best)).1
          ((map e.node).links.foldl (dijkstraRelax map e.cost e.node e.path) (q2, best)).2 := by
  rw [dijkstraLoop_succ, hpop]
  exact if_neg hne

theorem dijkstraLoop_done {n : ℕ} (map : StationMap n) (endId : Fin n) (fuel : ℕ)
    (q : List (Entry n)) (best : Fin n → Option ℝ) (e : Entry n) (q2 : List (Entry n))
    (hpop : heappop q = some (e, q2)) (heq : e.node = endId) :
    dijkstraLoop map endId (fuel + 1) q best = some (e.path ++ [e.node]) := by
  rw [dijkstraLoop_succ, hpop]
  exact if_pos heq

theorem aStarLoop_expand {n : ℕ} (map : StationMap n) (endId : Fin n) (fuel : ℕ)
    (q : List (Entry n)) (visited : Finset (Fin n)) (e : Entry n) (q2 : List (Entry n))
    (hpop : heappop q = some (e, q2)) (hne : e.node ≠ endId) (hnv : e.node ∉ visited) :
    aStarLoop map endId (fuel + 1) q visited
      = aStarLoop map endId fuel
          ((map e.node).links.foldl
            (aStarPush map (map endId) e.cost e.node e.path (insert e.node visited)) q2)
          (insert e.node visited) := by
  rw [aStarLoop_succ, hpop]
  show (if e.node = endId then some (e.path ++ [e.node])
      else if e.node ∈ visited then aStarLoop map endId fuel q2 visited
      else aStarLoop map endId fuel
        ((map e.node).links.foldl
          (aStarPush map (map endId) e.cost e.node e.path (insert e.node visited)) q2)
        (insert e.node visited))
    = aStarLoop map endId fuel
        ((map e.node).links.foldl
          (aStarPush map (map endId) e.cost e.node e.path (insert e.node visited)) q2)
        (insert e.node visited)
  rw [if_neg hne, if_neg hnv]

theorem aStarLoop_done {n : ℕ} (map : StationMap n) (endId : Fin n) (fuel : ℕ)
    (q : List (Entry n)) (visited : Finset (Fin n)) (e : Entry n) (q2 : List (Entry n))
    (hpop : heappop q = some (e, q2)) (heq : e.node = endId) :
    aStarLoop map endId (fuel + 1) q visited = some (e.path ++ [e.node]) := by
  rw [aStarLoop_succ, hpop]
  exact if_pos heq

theorem dijkstraRelax_eval_none {n : ℕ} (map : StationMap n) (c : ℝ) (u : Fin n)
    (p : List (Fin n)) (q : List (Entry n)) (best : Fin n → Option ℝ) (v : Fin n)
    (h : best v = none) :
    dijkstraRelax map c u p (q, best) v
      = (q ++ [⟨c + distance (map u) (map v), v, p ++ [u]⟩],
        Function.update best v (some (c + distance (map u) (map v)))) := by
  unfold dijkstraRelax
  rw [show ((q, best).2 : Fin n → Option ℝ) = best from rfl, h]

theorem dijkstraRelax_eval_ge {n : ℕ} (map : StationMap n) (c : ℝ) (u : Fin n)
    (p : List (Fin n)) (q : List (Entry n)) (best : Fin n → Option ℝ) (v : Fin n)
    (b : ℝ) (h : best v = some b) (hge : b ≤ c + distance (map u) (map v)) :
    dijkstraRelax map c u p (q, best) v = (q, best) := by
  unfold dijkstraRelax
  rw [show ((q, best).2 : Fin n → Option ℝ) = best from rfl, h]
  show (if c + distance (map u) (map v) < b then
      (q ++ [⟨c + distance (map u) (map v), v, p ++ [u]⟩],
        Function.update best v (some (c + distance (map u) (map v))))
    else (q, best)) = (q, best)
  rw [if_neg (not_lt.mpr hge)]

theorem aStarPush_eval_mem {n : ℕ} (map : StationMap n) (endSt : Station n) (c : ℝ)
    (u : Fin n) (p : List (Fin n)) (visited : Finset (Fin n)) (q : List (Entry n))
    (v : Fin n) (h : v ∈ visited) :
    aStarPush map endSt c u p visited q v = q := by
  unfold aStarPush
  rw [if_pos h]

theorem aStarPush_eval_not_mem {n : ℕ} (map : StationMap n) (endSt : Station n) (c : ℝ)
    (u : Fin n) (p : List (Fin n)) (visited : Finset (Fin n)) (q : List (Entry n))
    (v : Fin n) (h : v ∉ visited) :
    aStarPush map endSt c u p visited q v
      = q ++ [⟨c + distance (map u) (map v) + distance (map v) endSt, v, p ++ [u]⟩] := by
  unfold aStarPush
  rw [if_neg h]

theorem heappop_single {n : ℕ} (e : Entry n) : heappop [e] = some (e, []) := rfl

theorem heappop_cons_eval {n : ℕ} (a m : Entry n) (es r2 : List (Entry n))
    (h : heappop es = some (m, r2)) :
    heappop (a :: es)
      = if a.cost ≤ m.cost then some (a, es) else some (m, a :: r2) := by
  simp only [heappop]
  rw [h]

/-- The counterexample graph for the A* cost-conflation defect: four collinear
stations `0 = (0,8)`, `1 = (0,-1)`, `2 = (0,4)`, `3 = (0,0)`, linked
`0 - 1`, `0 - 2`, `1 - 3`, `2 - 3`. The shortest route from `0` to `3` is
`[0, 2, 3]` of length `8`; the detour `[0, 1, 3]` has length `10`. -/
noncomputable def cexMap : StationMap 4 := fun i =>
  if i = 0 then ⟨((0 : ℝ), (8 : ℝ)), [1, 2]⟩
  else if i = 1 then ⟨((0 : ℝ), (-1 : ℝ)), [0, 3]⟩
  else if i = 2 then ⟨((0 : ℝ), (4 : ℝ)), [0, 3]⟩
  else ⟨((0 : ℝ), (0 : ℝ)), [1, 2]⟩

theorem cexd01 : distance (cexMap 0) (cexMap 1) = 9 := by
  rw [distance_vertical (cexMap 0) (cexMap 1) rfl]
  show |(-1 : ℝ) - 8| = 9
  norm_num

theorem cexd02 : distance (cexMap 0) (cexMap 2) = 4 := by
  rw [distance_vertical (cexMap 0) (cexMap 2) rfl]
  show |(4 : ℝ) - 8| = 4
  norm_num

theorem cexd13 : distance (cexMap 1) (cexMap 3) = 1 := by
  rw [distance_vertical (cexMap 1) (cexMap 3) rfl]
  show |(0 : ℝ) - (-1)| = 1
  norm_num

theorem cexd20 : distance (cexMap 2) (cexMap 0) = 4 := by
  rw [distance_vertical (cexMap 2) (cexMap 0) rfl]
  show |(8 : ℝ) - 4| = 4
  norm_num

theorem cexd23 : distance (cexMap 2) (cexMap 3) = 4 := by
  rw [distance_vertical (cexMap 2) (cexMap 3) rfl]
  show |(0 : ℝ) - 4| = 4
  norm_num

theorem cexd33 : distance (cexMap 3) (cexMap 3) = 0 := distance_self _

theorem cexlinks0 : (cexMap (0 : Fin 4)).links = [1, 2] := rfl

theorem cexlinks1 : (cexMap (1 : Fin 4)).links = [0, 3] := rfl

theorem cexlinks2 : (cexMap (2 : Fin 4)).links = [0, 3] := rfl

theorem cex_numEdges : numEdges cexMap = 8 := by decide

theorem cex_totalDegree : totalDegree cexMap = 8 := by decide

theorem heappop_cons_eval' {n : ℕ} (c1 c2 : ℝ) (u1 u2 : Fin n) (p1 p2 : List (Fin n))
    (es r2 : List (Entry n)) (h : heappop es = some (⟨c2, u2, p2⟩, r2)) :
    heappop ((⟨c1, u1, p1⟩ : Entry n) :: es)
      = if c1 ≤ c2 then some (⟨c1, u1, p1⟩, es)
        else some (⟨c2, u2, p2⟩, (⟨c1, u1, p1⟩ : Entry n) :: r2) := by
  simp only [heappop]
  rw [h]

theorem dijkstraLoop_step' {n : ℕ} (map : StationMap n) (endId : Fin n) (fuel : ℕ)
    (q : List (Entry n)) (best : Fin n → Option ℝ) (c : ℝ) (u : Fin n)
    (p : List (Fin n)) (q2 : List (Entry n))
    (hpop : heappop q = some (⟨c, u, p⟩, q2)) (hne : u ≠ endId) :
    dijkstraLoop map endId (fuel + 1) q best
      = dijkstraLoop map endId fuel
          ((map u).links.foldl (dijkstraRelax map c u p) (q2, best)).1
          ((map u).links.foldl (dijkstraRelax map c u p) (q2, best)).2 := by
  rw [dijkstraLoop_succ, hpop]
  exact if_neg hne

theorem dijkstraLoop_done' {n : ℕ} (map : StationMap n) (endId : Fin n) (fuel : ℕ)
    (q : List (Entry n)) (best : Fin n → Option ℝ) (c : ℝ) (p : List (Fin n))
    (q2 : List (Entry n)) (hpop : heappop q = some (⟨c, endId, p⟩, q2)) :
    dijkstraLoop map endId (fuel + 1) q best = some (p ++ [endId]) := by
  rw [dijkstraLoop_succ, hpop]
  exact if_pos rfl

theorem aStarLoop_expand' {n : ℕ} (map : StationMap n) (endId : Fin n) (fuel : ℕ)
    (q : List (Entry n)) (visited : Finset (Fin n)) (c : ℝ) (u : Fin n)
    (p : List (Fin n)) (q2 : List (Entry n))
    (hpop : heappop q = some (⟨c, u, p⟩, q2)) (hne : u ≠ endId) (hnv : u ∉ visited) :
    aStarLoop map endId (fuel + 1) q visited
      = aStarLoop map endId fuel
          ((map u).links.foldl (aStarPush map (map endId) c u p (insert u visited)) q2)
          (insert u visited) := by
  rw [aStarLoop_succ, hpop]
  show (if u = endId then some (p ++ [u])
      else if u ∈ visited then aStarLoop map endId fuel q2 visited
      else aStarLoop map endId fuel
        ((map u).links.foldl (aStarPush map (map endId) c u p (insert u visited)) q2)
        (insert u visited))
    = aStarLoop map endId fuel
        ((map u).links.foldl (aStarPush map (map endId) c u p (insert u visited)) q2)
        (insert u visited)
  rw [if_neg hne, if_neg hnv]

theorem aStarLoop_done' {n : ℕ} (map : StationMap n) (endId : Fin n) (fuel : ℕ)
    (q : List (Entry n)) (visited : Finset (Fin n)) (c : ℝ) (p : List (Fin n))
    (q2 : List (Entry n)) (hpop : heappop q = some (⟨c, endId, p⟩, q2)) :
    aStarLoop map endId (fuel + 1) q visited = some (p ++ [endId]) := by
  rw [aStarLoop_succ, hpop]
  exact if_pos rfl

/-- On the counterexample graph, Dijkstra from station `0` to station `3`
returns the genuinely shortest route `[0, 2, 3]` (length `8`). -/
theorem dijkstra_cex : dijkstra_get_path 0 3 cexMap = some [0, 2, 3] := by
  unfold dijkstra_get_path
  rw [cex_numEdges]
  set b0 : Fin 4 → Option ℝ :=
    Function.update (fun _ : Fin 4 => (none : Option ℝ)) 0 (some 0) with hb0def
  set b1 : Fin 4 → Option ℝ :=
    Function.update (Function.update b0 1 (some 9)) 2 (some 4) with hb1def
  set b2 : Fin 4 → Option ℝ := Function.update b1 3 (some 8) with hb2def
  rw [show (8 + 2 : ℕ) = 9 + 1 from rfl]
  rw [dijkstraLoop_step' cexMap 3 9 _ b0 0 0 [] [] (heappop_single _) (by decide)]
  have hb01 : b0 1 = none := by
    rw [hb0def, Function.update_noteq (by decide)]
  have hb02 : Function.update b0 1 (some 9) 2 = none := by
    rw [Function.update_noteq (by decide), hb0def, Function.update_noteq (by decide)]
  have hf1 : ((cexMap (0 : Fin 4)).links.foldl (dijkstraRelax cexMap 0 0 []) ([], b0))
      = ([⟨9, 1, [0]⟩, ⟨4, 2, [0]⟩], b1) := by
    rw [cexlinks0]
    simp only [List.foldl_cons, List.foldl_nil]
    rw [dijkstraRelax_eval_none _ _ _ _ _ _ _ hb01, cexd01,
      show (0 : ℝ) + 9 = 9 from by norm_num]
    rw [dijkstraRelax_eval_none _ _ _ _ _ _ _ hb02, cexd02,
      show (0 : ℝ) + 4 = 4 from by norm_num]
    rw [hb1def]
    simp only [List.nil_append, List.cons_append]
  have hf1fst : ((cexMap (0 : Fin 4)).links.foldl (dijkstraRelax cexMap 0 0 []) ([], b0)).1
      = [⟨9, 1, [0]⟩, ⟨4, 2, [0]⟩] := by rw [hf1]
  have hf1snd : ((cexMap (0 : Fin 4)).links.foldl (dijkstraRelax cexMap 0 0 []) ([], b0)).2
      = b1 := by rw [hf1]
  rw [hf1fst, hf1snd]
  have hpop2 : heappop [(⟨9, 1, [0]⟩ : Entry 4), ⟨4, 2, [0]⟩]
      = some (⟨4, 2, [0]⟩, [⟨9, 1, [0]⟩]) := by
    rw [heappop_cons_eval' _ _ _ _ _ _ _ _ (heappop_single _)]
    rw [if_neg (by norm_num : ¬ ((9 : ℝ) ≤ 4))]
  rw [show (9 : ℕ) = 8 + 1 from rfl]
  rw [dijkstraLoop_step' cexMap 3 8 _ b1 4 2 [0] _ hpop2 (by decide)]
  have hb10 : b1 0 = some 0 := by
    rw [hb1def, Function.update_noteq (by decide), Function.update_noteq (by decide),
      hb0def, Function.update_same]
  have hb13 : b1 3 = none := by
    rw [hb1def, Function.update_noteq (by decide), Function.update_noteq (by decide),
      hb0def, Function.update_noteq (by decide)]
  have hf2 : ((cexMap (2 : Fin 4)).links.foldl (dijkstraRelax cexMap 4 2 [0])
        ([⟨9, 1, [0]⟩], b1))
      = ([⟨9, 1, [0]⟩, ⟨8, 3, [0, 2]⟩], b2) := by
    rw [cexlinks2]
    simp only [List.foldl_cons, List.foldl_nil]
    rw [dijkstraRelax_eval_ge _ _ _ _ _ _ _ 0 hb10 (by rw [cexd20]; norm_num)]
    rw [dijkstraRelax_eval_none _ _ _ _ _ _ _ hb13, cexd23,
      show (4 : ℝ) + 4 = 8 from by norm_num]
    rw [hb2def]
    simp only [List.cons_append, List.nil_append]
  have hf2fst : ((cexMap (2 : Fin 4)).links.foldl (dijkstraRelax cexMap 4 2 [0])
      ([⟨9, 1, [0]⟩], b1)).1 = [⟨9, 1, [0]⟩, ⟨8, 3, [0, 2]⟩] := by rw [hf2]
  have hf2snd : ((cexMap (2 : Fin 4)).links.foldl (dijkstraRelax cexMap 4 2 [0])
      ([⟨9, 1, [0]⟩], b1)).2 = b2 := by rw [hf2]
  rw [hf2fst, hf2snd]
  have hpop3 : heappop [(⟨9, 1, [0]⟩ : Entry 4), ⟨8, 3, [0, 2]⟩]
      = some (⟨8, 3, [0, 2]⟩, [⟨9, 1, [0]⟩]) := by
    rw [heappop_cons_eval' _ _ _ _ _ _ _ _ (heappop_single _)]
    rw [if_neg (by norm_num : ¬ ((9 : ℝ) ≤ 8))]
  rw [show (8 : ℕ) = 7 + 1 from rfl]
  rw [dijkstraLoop_done' cexMap 3 7 _ b2 8 [0, 2] _ hpop3]
  rfl

/-- On the counterexample graph, A* from station `0` to station `3` returns
the suboptimal route `[0, 1, 3]` (length `10`): the popped priority, which
includes the heuristic, is reused as the accumulated cost, so the route
through station `2` is pushed with an inflated cost `12` and loses to the
detour through station `1`. -/
theorem a_star_cex : a_star_get_path 0 3 cexMap = some [0, 1, 3] := by
  unfold a_star_get_path
  rw [cex_totalDegree]
  rw [show (4 + 8 + 2 : ℕ) = 13 + 1 from rfl]
  rw [aStarLoop_expand' cexMap 3 13 _ ∅ 0 0 [] [] (heappop_single _) (by decide) (by decide)]
  have hg1 : ((cexMap (0 : Fin 4)).links.foldl
        (aStarPush cexMap (cexMap 3) 0 0 [] (insert 0 ∅)) [])
      = [⟨10, 1, [0]⟩, ⟨8, 2, [0]⟩] := by
    rw [cexlinks0]
    simp only [List.foldl_cons, List.foldl_nil]
    rw [aStarPush_eval_not_mem _ _ _ _ _ _ _ 1 (by decide)]
    rw [aStarPush_eval_not_mem _ _ _ _ _ _ _ 2 (by decide)]
    rw [cexd01, cexd13, cexd02, cexd23,
      show (0 : ℝ) + 9 + 1 = 10 from by norm_num,
      show (0 : ℝ) + 4 + 4 = 8 from by norm_num]
    simp only [List.nil_append, List.cons_append]
  rw [hg1]
  have hpopA2 : heappop [(⟨10, 1, [0]⟩ : Entry 4), ⟨8, 2, [0]⟩]
      = some (⟨8, 2, [0]⟩, [⟨10, 1, [0]⟩]) := by
    rw [heappop_cons_eval' _ _ _ _ _ _ _ _ (heappop_single _)]
    rw [if_neg (by norm_num : ¬ ((10 : ℝ) ≤ 8))]
  rw [show (13 : ℕ) = 12 + 1 from rfl]
  rw [aStarLoop_expand' cexMap 3 12 _ _ 8 2 [0] _ hpopA2 (by decide) (by decide)]
  have hg2 : ((cexMap (2 : Fin 4)).links.foldl
        (aStarPush cexMap (cexMap 3) 8 2 [0] (insert 2 (insert 0 ∅))) [⟨10, 1, [0]⟩])
      = [⟨10, 1, [0]⟩, ⟨12, 3, [0, 2]⟩] := by
    rw [cexlinks2]
    simp only [List.foldl_cons, List.foldl_nil]
    rw [aStarPush_eval_mem _ _ _ _ _ _ _ 0 (by decide)]
    rw [aStarPush_eval_not_mem _ _ _ _ _ _ _ 3 (by decide)]
    rw [cexd23, cexd33, show (8 : ℝ) + 4 + 0 = 12 from by norm_num]
    simp only [List.cons_append, List.nil_append]
  rw [hg2]
  have hpopA3 : heappop [(⟨10, 1, [0]⟩ : Entry 4), ⟨12, 3, [0, 2]⟩]
      = some (⟨10, 1, [0]⟩, [⟨12, 3, [0, 2]⟩]) := by
    rw [heappop_cons_eval' _ _ _ _ _ _ _ _ (heappop_single _)]
    rw [if_pos (by norm_num : (10 : ℝ) ≤ 12)]
  rw [show (12 : ℕ) = 11 + 1 from rfl]
  rw [aStarLoop_expand' cexMap 3 11 _ _ 10 1 [0] _ hpopA3 (by decide) (by decide)]
  have hg3 : ((cexMap (1 : Fin 4)).links.foldl
        (aStarPush cexMap (cexMap 3) 10 1 [0] (insert 1 (insert 2 (insert 0 ∅))))
        [⟨12, 3, [0, 2]⟩])
      = [⟨12, 3, [0, 2]⟩, ⟨11, 3, [0, 1]⟩] := by
    rw [cexlinks1]
    simp only [List.foldl_cons, List.foldl_nil]
    rw [aStarPush_eval_mem _ _ _ _ _ _ _ 0 (by decide)]
    rw [aStarPush_eval_not_mem _ _ _ _ _ _ _ 3 (by decide)]
    rw [cexd13, cexd33, show (10 : ℝ) + 1 + 0 = 11 from by norm_num]
    simp only [List.cons_append, List.nil_append]
  rw [hg3]
  have hpopA4 : heappop [(⟨12, 3, [0, 2]⟩ : Entry 4), ⟨11, 3, [0, 1]⟩]
      = some (⟨11, 3, [0, 1]⟩, [⟨12, 3, [0, 2]⟩]) := by
    rw [heappop_cons_eval' _ _ _ _ _ _ _ _ (heappop_single _)]
    rw [if_neg (by norm_num : ¬ ((12 : ℝ) ≤ 11))]
  rw [show (11 : ℕ) = 10 + 1 from rfl]
  rw [aStarLoop_done' cexMap 3 10 _ _ 11 [0, 1] _ hpopA4]
  rfl

theorem cex_len_dijkstra : calculate_path_length [0, 2, 3] cexMap = 8 := by
  rw [calculate_path_length_cons_cons, calculate_path_length_cons_cons,
    calculate_path_length_single, cexd02, cexd23]
  norm_num

theorem cex_len_astar : calculate_path_length [0, 1, 3] cexMap = 10 := by
  rw [calculate_path_length_cons_cons, calculate_path_length_cons_cons,
    calculate_path_length_single, cexd01, cexd13]
  norm_num

/-- A two-station graph with no links at all: station `1` is in a different
connected component than station `0`. -/
noncomputable def twoMap : StationMap 2 := fun i =>
  if i = 0 then ⟨((0 : ℝ), (0 : ℝ)), []⟩ else ⟨((1 : ℝ), (0 : ℝ)), []⟩

theorem twoMap_links (u : Fin 2) : (twoMap u).links = [] := by
  fin_cases u <;> rfl

theorem twoMap_unreach : ¬ Reachable twoMap 0 1 := by
  rintro ⟨p, hne, hh, hl, hchain⟩
  cases p with
  | nil => exact hne rfl
  | cons a q =>
      cases q with
      | nil =>
          simp only [List.head?_cons, Option.some.injEq] at hh
          have hl2 : a = 1 := by simpa using hl
          rw [hh] at hl2
          exact absurd hl2 (by decide)
      | cons b q2 =>
          rw [List.chain'_cons] at hchain
          have hbmem : b ∈ (twoMap a).links := hchain.1
          rw [twoMap_links] at hbmem
          exact absurd hbmem (List.not_mem_nil b)


/-- Claim C1: REFUTED — on the four-station counterexample graph (stations on
a vertical line at heights 8, -1, 4, 0, linked 0-1, 0-2, 1-3, 2-3), Dijkstra
from 0 to 3 returns `[0, 2, 3]` of length 8, while A* returns `[0, 1, 3]` of
length 10: `a_star_get_path` reuses the popped priority (accumulated cost
plus accumulated heuristic contributions) as the accumulated cost, so the
route lengths of the two algorithms differ. -/
theorem C1_astar_neq_dijkstra :
    dijkstra_get_path 0 3 cexMap = some [0, 2, 3] ∧
    a_star_get_path 0 3 cexMap = some [0, 1, 3] ∧
    calculate_path_length [0, 2, 3] cexMap = 8 ∧
    calculate_path_length [0, 1, 3] cexMap = 10 ∧
    calculate_path_length [0, 1, 3] cexMap ≠ calculate_path_length [0, 2, 3] cexMap := by
  refine ⟨dijkstra_cex, a_star_cex, cex_len_dijkstra, cex_len_astar, ?_⟩
  rw [cex_len_dijkstra, cex_len_astar]
  norm_num

/-- Claim C2: for every station map and every start/end pair, Dijkstra and
Bellman-Ford both return a path, and the two paths have equal total length
(both `0` when the end is unreachable, both optimal otherwise). -/
theorem C2_dijkstra_bellman_equal_length {n : ℕ} (map : StationMap n)
    (start endId : Fin n) :
    ∃ pD pB, dijkstra_get_path start endId map = some pD ∧
      bellman_ford_get_path start endId map = some pB ∧
      calculate_path_length pD map = calculate_path_length pB map := by
  obtain ⟨pD, hD⟩ := Option.isSome_iff_exists.mp (dijkstra_total map start endId)
  obtain ⟨pB, hB, hBlast, hBreach, hBunreach⟩ := bellman_ford_spec map start endId
  refine ⟨pD, pB, hD, hB, ?_⟩
  rcases dijkstra_get_path_sound map start endId pD hD with ⟨hnil, hunreach⟩ | ⟨hroute, hopt⟩
  · rw [hnil, hBunreach hunreach, calculate_path_length_nil, calculate_path_length_single]
  · have hreach : Reachable map start endId := ⟨pD, hroute⟩
    obtain ⟨hBroute, hBopt⟩ := hBreach hreach
    exact le_antisymm (hopt pB hBroute) (hBopt pD hroute)

/-- Claim C3 (amended): when the end station is unreachable from the start,
`dijkstra_get_path` and `a_star_get_path` return the empty sequence, but
`bellman_ford_get_path` returns the single-element sequence `[end]` (the
predecessor walk starts at the end station and stops immediately because its
predecessor is still `None`). -/
theorem C3_no_path_amended {n : ℕ} (map : StationMap n) (start endId : Fin n)
    (h : ¬ Reachable map start endId) :
    dijkstra_get_path start endId map = some [] ∧
    a_star_get_path start endId map = some [] ∧
    bellman_ford_get_path start endId map = some [endId] := by
  obtain ⟨pD, hD⟩ := Option.isSome_iff_exists.mp (dijkstra_total map start endId)
  obtain ⟨pA, hA⟩ := Option.isSome_iff_exists.mp (a_star_total map start endId)
  obtain ⟨pB, hB, hBlast, hBreach, hBunreach⟩ := bellman_ford_spec map start endId
  refine ⟨?_, ?_, ?_⟩
  · rcases dijkstra_get_path_sound map start endId pD hD with ⟨hnil, _⟩ | ⟨hroute, _⟩
    · rw [hD, hnil]
    · exact absurd ⟨pD, hroute⟩ h
  · rcases a_star_get_path_sound map start endId pA hA with ⟨hnil, _⟩ | hroute
    · rw [hA, hnil]
    · exact absurd ⟨pA, hroute⟩ h
  · rw [hB, hBunreach h]

theorem C3_no_path_amended_witness :
    dijkstra_get_path 0 1 twoMap = some [] ∧
    a_star_get_path 0 1 twoMap = some [] ∧
    bellman_ford_get_path 0 1 twoMap = some [1] :=
  C3_no_path_amended twoMap 0 1 twoMap_unreach

/-- Claim C3 counterexample: on the linkless two-station graph, station `1`
is unreachable from station `0`, yet `bellman_ford_get_path` returns the
non-empty sequence `[1]` instead of the empty sequence. -/
theorem C3_bellman_nonempty_cex :
    ¬ Reachable twoMap 0 1 ∧ bellman_ford_get_path 0 1 twoMap = some [1] ∧
      ([1] : List (Fin 2)) ≠ [] := by
  refine ⟨twoMap_unreach, ?_, by simp⟩
  obtain ⟨res, heq, _, _, hun⟩ := bellman_ford_spec twoMap 0 1
  rw [heq, hun twoMap_unreach]

/-- Claim C4 (amended): the comparison chain reports the strict-minimum
verdict whenever one algorithm's length is strictly below both others; it
reports a strict-maximum verdict only when no strict minimum exists (which
forces the two smaller lengths to be equal); and it reports the tie verdict
exactly when all three lengths are equal. -/
theorem C4_compare_amended :
    (∀ ld la lb : ℝ, compareVerdict ld la lb = Verdict.same ↔ ld = la ∧ la = lb) ∧
    (∀ ld la lb : ℝ, ld < la → ld < lb →
      compareVerdict ld la lb = Verdict.shortestDijkstra) ∧
    (∀ ld la lb : ℝ, la < ld → la < lb →
      compareVerdict ld la lb = Verdict.shortestAStar) ∧
    (∀ ld la lb : ℝ, lb < ld → lb < la →
      compareVerdict ld la lb = Verdict.shortestBellman) ∧
    (∀ ld la lb : ℝ, la < ld → lb < ld → la = lb →
      compareVerdict ld la lb = Verdict.longestDijkstra) ∧
    (∀ ld la lb : ℝ, ld < la → lb < la → ld = lb →
      compareVerdict ld la lb = Verdict.longestAStar) ∧
    (∀ ld la lb : ℝ, ld < lb → la < lb → ld = la →
      compareVerdict ld la lb = Verdict.longestBellman) :=
  ⟨compareVerdict_same_iff,
    fun _ _ _ h1 h2 => compareVerdict_strict_min_dijkstra h1 h2,
    fun _ _ _ h1 h2 => compareVerdict_strict_min_astar h1 h2,
    fun _ _ _ h1 h2 => compareVerdict_strict_min_bellman h1 h2,
    fun _ _ _ h1 h2 heq => compareVerdict_strict_max_dijkstra h1 h2 heq,
    fun _ _ _ h1 h2 heq => compareVerdict_strict_max_astar h1 h2 heq,
    fun _ _ _ h1 h2 heq => compareVerdict_strict_max_bellman h1 h2 heq⟩

theorem C4_compare_amended_witness :
    compareVerdict 1 2 2 = Verdict.shortestDijkstra ∧
    compareVerdict 3 1 1 = Verdict.longestDijkstra := by
  constructor
  · exact C4_compare_amended.2.1 1 2 2 (by norm_num) (by norm_num)
  · exact C4_compare_amended.2.2.2.2.1 3 1 1 (by norm_num) (by norm_num) rfl

/-- Claim C4 counterexample: with lengths 1, 2, 3 a strict maximum exists
(Bellman-Ford, at 3), but the elif chain stops at the strict-minimum branch:
the verdict is the shortest-path report, and no longest-path report is ever
produced alongside it. -/
theorem C4_min_hides_max_cex :
    compareVerdict 1 2 3 = Verdict.shortestDijkstra ∧
    (1 : ℝ) < 3 ∧ (2 : ℝ) < 3 ∧
    Verdict.shortestDijkstra ≠ Verdict.longestBellman :=
  ⟨compareVerdict_strict_min_dijkstra (by norm_num) (by norm_num),
    by norm_num, by norm_num, fun h => Verdict.noConfusion h⟩

/-- Claim C5 (amended): every non-empty path returned by `dijkstra_get_path`
or `a_star_get_path` starts with the start identifier and ends with the end
identifier; the path returned by `bellman_ford_get_path` always ends with the
end identifier but begins with the start identifier only when the end is
reachable (otherwise it is `[end]`). -/
theorem C5_endpoints_amended {n : ℕ} (map : StationMap n) (start endId : Fin n) :
    (∀ r, dijkstra_get_path start endId map = some r → r ≠ [] →
      r.head? = some start ∧ r.getLast? = some endId) ∧
    (∀ r, a_star_get_path start endId map = some r → r ≠ [] →
      r.head? = some start ∧ r.getLast? = some endId) ∧
    (∀ r, bellman_ford_get_path start endId map = some r →
      r.getLast? = some endId ∧
      (Reachable map start endId → r.head? = some start)) := by
  refine ⟨?_, ?_, ?_⟩
  · intro r hr hne
    rcases dijkstra_get_path_sound map start endId r hr with ⟨hnil, _⟩ | ⟨hroute, _⟩
    · exact absurd hnil hne
    · exact ⟨hroute.2.1, hroute.2.2.1⟩
  · intro r hr hne
    rcases a_star_get_path_sound map start endId r hr with ⟨hnil, _⟩ | hroute
    · exact absurd hnil hne
    · exact ⟨hroute.2.1, hroute.2.2.1⟩
  · intro r hr
    obtain ⟨res, heq, hlast, hreach, _⟩ := bellman_ford_spec map start endId
    rw [heq] at hr
    have hrr : res = r := Option.some.inj hr
    subst hrr
    exact ⟨hlast, fun h => (hreach h).1.2.1⟩

theorem C5_endpoints_amended_witness :
    (([0] : List (Fin 2)).head? = some 0 ∧ ([0] : List (Fin 2)).getLast? = some 0) ∧
    ([0] : List (Fin 2)).getLast? = some 0 := by
  constructor
  · exact (C5_endpoints_amended twoMap 0 0).1 [0] (dijkstra_start_eq_end 0 twoMap)
      (by simp)
  · exact ((C5_endpoints_amended twoMap 0 0).2.2 [0] (bellman_start_eq_end 0 twoMap)).1

/-- Claim C5 counterexample: on the linkless two-station graph,
`bellman_ford_get_path` from `0` to `1` returns the non-empty path `[1]`,
whose first element is `1`, not the start identifier `0`. -/
theorem C5_bellman_head_cex :
    bellman_ford_get_path 0 1 twoMap = some [1] ∧
    ([1] : List (Fin 2)).head? = some 1 ∧ (1 : Fin 2) ≠ 0 := by
  refine ⟨?_, rfl, by decide⟩
  obtain ⟨res, heq, _, _, hun⟩ := bellman_ford_spec twoMap 0 1
  rw [heq, hun twoMap_unreach]

/-- Claim C6: for every station map and every start/end pair, the predecessor
walk of `bellman_ford_get_path` terminates and the function returns a value —
also when the end station is unreachable from the start (the predecessor
relation produced by the relaxation rounds is acyclic, so `n + 1` steps always
reach a station without a predecessor). -/
theorem C6_bellman_terminates {n : ℕ} (map : StationMap n) (start endId : Fin n) :
    (bellman_ford_get_path start endId map).isSome := by
  obtain ⟨res, heq, _⟩ := bellman_ford_spec map start endId
  rw [heq]
  rfl

/-- Claim C7: with start = end = s, all three algorithms return the
single-element path `[s]`, and `calculate_path_length` of `[s]` is `0`. -/
theorem C7_start_eq_end {n : ℕ} (map : StationMap n) (s : Fin n) :
    dijkstra_get_path s s map = some [s] ∧
    a_star_get_path s s map = some [s] ∧
    bellman_ford_get_path s s map = some [s] ∧
    calculate_path_length [s] map = 0 :=
  ⟨dijkstra_start_eq_end s map, a_star_start_eq_end s map,
    bellman_start_eq_end s map, calculate_path_length_single map s⟩

/-- Claim C8: `distance` is symmetric in its two arguments, and consequently
`calculate_path_length` of a reversed path equals that of the original. -/
theorem C8_length_reverse {n : ℕ} (map : StationMap n) :
    (∀ s1 s2 : Station n, distance s1 s2 = distance s2 s1) ∧
    ∀ p : List (Fin n),
      calculate_path_length p.reverse map = calculate_path_length p map :=
  ⟨distance_comm, calculate_path_length_reverse map⟩

/-- Claim C9: `calculate_path_length` never returns a negative value: it is a
sum of Euclidean distances, each of which is a non-negative square root. -/
theorem C9_length_nonneg {n : ℕ} (map : StationMap n) (p : List (Fin n)) :
    0 ≤ calculate_path_length p map :=
  calculate_path_length_nonneg p map

/-- Claim C10: `dijkstra_get_path` terminates on every station map and every
start/end pair: each re-push strictly lowers the pushed station's recorded
best-known cost along a fresh directed edge, so `numEdges map + 2` loop
iterations always suffice for the loop to return. -/
theorem C10_dijkstra_terminates {n : ℕ} (map : StationMap n) (start endId : Fin n) :
    (dijkstra_get_path start endId map).isSome :=
  dijkstra_total map start endId
